import Mathlib

/-!
# Verification of the kingdom-kitchen recommendation engine

A shallow embedding, in Lean 4, of the preference-learning and scoring core of
the kingdom-kitchen meal planner:

* `src/lib/recommendation.ts` — `calculateScore`, `getFamilySuggestions`,
  `getNextRecipeToRate`, `getRatingDelta`, and the SQL part of the same file:
  the trigger function `update_preference_weights` and the (uncalled) SQL
  functions `calculate_recipe_score`, `get_next_recipe_to_rate`,
  `get_family_suggestions`.
* `src/lib/features.ts` — `extractFeatures` with its keyword tables.

Numbers that the source stores as JS numbers / SQL `DECIMAL(4,3)` are modelled
as rationals (`ℚ`); database result sets are modelled as the lists the queries
return, in query order.  `JSON` feature maps become association lists in object
insertion order, which is what both `Object.entries` (TS) and the stored JSONB
iteration deliver to the scoring/updating loops.
-/

/-! ## Generic helpers: characters, substrings, stable sorting -/

/-- ASCII lower-casing of one character, as `String.prototype.toLowerCase`
performs on the ASCII range (the only range exercised here). -/
def lowerChar (c : Char) : Char :=
  if 'A' ≤ c ∧ c ≤ 'Z' then Char.ofNat (c.toNat + 32) else c

/-- `s.toLowerCase()` on strings. -/
def toLowerCase (s : String) : String :=
  ⟨s.data.map lowerChar⟩

/-- Does the character list `needle` occur contiguously inside `hay`? -/
def infixOfAux (needle : List Char) : List Char → Bool
  | [] => needle.isEmpty
  | c :: cs => needle.isPrefixOf (c :: cs) || infixOfAux needle cs

/-- `hay.includes(needle)` — JS substring containment. -/
def strIncludes (hay needle : String) : Bool :=
  infixOfAux needle.data hay.data

/-- Insert `x` into an already-sorted list: `x` goes in front of the first
element `y` such that `before x y`.  With a reflexive total `before` this is
the insertion step of a stable sort. -/
def insertSorted (before : α → α → Bool) (x : α) : List α → List α
  | [] => [x]
  | y :: ys => if before x y then x :: y :: ys else y :: insertSorted before x ys

/-- Stable insertion sort.  With `before a b = (key b ≤ key a)` this is
extensionally the ECMAScript stable `Array.prototype.sort` under the numeric
comparator `(a, b) => key(b) - key(a)` (descending, ties keep list order). -/
def stableSort (before : α → α → Bool) : List α → List α
  | [] => []
  | x :: xs => insertSorted before x (stableSort before xs)

/-- A feature value: scalar (cuisine, carb, …) or array (protein, ingredients). -/
inductive FeatureValue where
  | scalar : String → FeatureValue
  | arr : List String → FeatureValue
deriving DecidableEq

/-- A `preference_weights` row as the TS code reads it (`PreferenceWeight` in
`src/lib/types.ts`; the fields not consumed by the scoring code are omitted). -/
structure PreferenceWeight where
  profile_id : String
  feature_type : String
  feature_value : String
  weight : ℚ
deriving DecidableEq

/-! ## ScoringEngine: `calculateScore` (src/lib/recommendation.ts 13-50) -/

/-- The string key `` `${feature_type}:${feature_value}` `` used by
`calculateScore` for its weight lookup map. -/
def featureKey (ft v : String) : String := ft ++ ":" ++ v

/-- The lookup key of one weight row. -/
def weightKey (w : PreferenceWeight) : String :=
  featureKey w.feature_type w.feature_value

/-- `Map.prototype.set` on an association list: replace in place if the key is
present (keeping its position), else append. -/
def mapSet (m : List (String × ℚ)) (k : String) (v : ℚ) : List (String × ℚ) :=
  match m with
  | [] => [(k, v)]
  | p :: ps => if p.1 == k then (p.1, v) :: ps else p :: mapSet ps k v

/-- `Map.prototype.get` on an association list. -/
def mapGet (m : List (String × ℚ)) (k : String) : Option ℚ :=
  (m.find? (fun p => p.1 == k)).map (·.2)

/-- The weight lookup map built by `calculateScore` (lines 20-24): inserted in
list order, so a duplicated key keeps the **last** weight. -/
def buildWeightMap (ws : List PreferenceWeight) : List (String × ℚ) :=
  ws.foldl (fun m w => mapSet m (weightKey w) w.weight) []

/-- Scoring one feature entry (lines 27-47): array features sum the weight of
every member found in the map, scalar features add the single weight if
present; absent keys contribute `0`. -/
def scoreFeatureEntry (m : List (String × ℚ)) : String × FeatureValue → ℚ
  | (ft, .arr vals) => (vals.map (fun v => (mapGet m (featureKey ft v)).getD 0)).sum
  | (ft, .scalar v) => (mapGet m (featureKey ft v)).getD 0

/-- `calculateScore(recipeFeatures, userWeights)` (lines 13-50). -/
def calculateScore (features : List (String × FeatureValue))
    (userWeights : List PreferenceWeight) : ℚ :=
  (features.map (scoreFeatureEntry (buildWeightMap userWeights))).sum

/-! ## Spec-side restatement of scoring (for the additivity claim)

The spec describes `score(features, weights)` as "the sum of the weights of
exactly the `(type, value)` pairs present in both `features` and `weights`".
The following definitions follow the spec's words; the additivity theorem
compares them with `calculateScore` above, which is translated from the code. -/

/-- The `(feature_type, feature_value)` pairs a feature set mentions, with
set-valued features expanded into one pair per member. -/
def featurePairs (features : List (String × FeatureValue)) : List (String × String) :=
  features.flatMap fun p =>
    match p.2 with
    | .arr vals => vals.map (fun v => (p.1, v))
    | .scalar v => [(p.1, v)]

/-- Spec-side score: over each `(type, value)` pair mentioned by the features,
add the weight of the matching weight-list entry, or `0` when the pair is
absent from the weight list. -/
def specScoreSum (features : List (String × FeatureValue))
    (ws : List PreferenceWeight) : ℚ :=
  ((featurePairs features).map fun p =>
    ((ws.find? fun w => w.feature_type == p.1 && w.feature_value == p.2).map
      (·.weight)).getD 0).sum

/-- The keys of the `RecipeFeatures` interface (src/lib/types.ts 191-200): the
only keys `Object.entries` can yield for a recipe's feature object. -/
def recipeFeatureKeys : List String :=
  ["cuisine", "protein", "carb", "cooking_method", "prep_time_bucket",
   "ingredients", "spice_level", "meal_type"]

/-- The values of the `feature_type` enum (src/lib/types.ts 158-166, SQL enum
`feature_type`): the only feature types a `preference_weights` row can carry.
Note `ingredient` (singular) against the feature key `ingredients` (plural). -/
def featureTypeNames : List String :=
  ["cuisine", "protein", "carb", "cooking_method", "prep_time_bucket",
   "ingredient", "spice_level", "meal_type"]

/-- A string without a colon: every feature type / feature key is one, which
makes the `type ++ ":" ++ value` lookup keys unambiguous. -/
def noColon (s : String) : Prop := ':' ∉ s.data

instance (s : String) : Decidable (noColon s) := by
  unfold noColon; infer_instance

/-- The five-point rating scale (`rating_value` enum / TS `RatingValue`). -/
inductive RatingValue where
  | loved
  | liked
  | neutral
  | disliked
  | hated
deriving DecidableEq

/-- `getRatingDelta` (TS 242-251); the SQL `CASE NEW.rating` at lines 509-515
maps the same five values to the same deltas. -/
def getRatingDelta : RatingValue → ℚ
  | .loved => 15/100
  | .liked => 8/100
  | .neutral => 0
  | .disliked => -(8/100)
  | .hated => -(15/100)

/-- `feature_val::text` for a scalar JSONB string value: casting `jsonb` to
`text` yields the JSON rendering, which keeps the quote characters around a
string.  The trigger (line 535) and `calculate_recipe_score` (line 601) key
scalar features by this quoted text. -/
def jsonbText (s : String) : String := "\"" ++ s ++ "\""

/-- One `preference_weights` row of the rated profile, as the trigger reads and
writes it. -/
structure StoredWeight where
  feature_type : String
  feature_value : String
  weight : ℚ
  sample_count : ℕ
deriving DecidableEq

/-- `GREATEST(-1.0, LEAST(1.0, q))`. -/
def clampWeight (q : ℚ) : ℚ := max (-1) (min 1 q)

/-- The feature-loop upsert (SQL 524-531 and 534-541): insert
`(weight = delta, sample_count = 1)` when the `(feature_type, feature_value)`
key is new, else set `weight = GREATEST(-1.0, LEAST(1.0, weight + delta))` and
increment `sample_count`. -/
def upsertClamped (delta : ℚ) (ft fv : String) : List StoredWeight → List StoredWeight
  | [] => [⟨ft, fv, delta, 1⟩]
  | w :: ws =>
    if w.feature_type == ft && w.feature_value == fv then
      ⟨w.feature_type, w.feature_value, clampWeight (w.weight + delta),
        w.sample_count + 1⟩ :: ws
    else w :: upsertClamped delta ft fv ws

/-- The excluded-ingredient upsert (SQL 548-554): insert
`(weight = -0.2, sample_count = 1)` when new, else
`weight = GREATEST(-1.0, weight - 0.2)` (this branch has no upper clamp) and
increment `sample_count`.  The key type is the literal `'ingredient'`. -/
def upsertExcluded (ing : String) : List StoredWeight → List StoredWeight
  | [] => [⟨"ingredient", ing, -(2/10), 1⟩]
  | w :: ws =>
    if w.feature_type == "ingredient" && w.feature_value == ing then
      ⟨w.feature_type, w.feature_value, max (-1) (w.weight - 2/10),
        w.sample_count + 1⟩ :: ws
    else w :: upsertExcluded ing ws

/-- The `(feature_type, feature_value)` keys visited by the trigger's feature
loop (SQL 518-542): array features upsert once per element (unquoted, via
`jsonb_array_elements_text`); scalar features upsert once, keyed by
`feature_val::text` (quoted). -/
def triggerFeaturePairs (features : List (String × FeatureValue)) : List (String × String) :=
  features.flatMap fun p =>
    match p.2 with
    | .arr vals => vals.map (fun v => (p.1, v))
    | .scalar v => [(p.1, jsonbText v)]

/-- One rating insertion as the trigger sees it: the rating value, the rated
recipe's stored features, and the rating's `excluded_ingredients`. -/
structure RatingEvent where
  rating : RatingValue
  features : List (String × FeatureValue)
  excluded_ingredients : List String

/-- Whether the enum casts `feature_key::feature_type` of the trigger (SQL
lines 525, 535) and of `calculate_recipe_score` (lines 589, 600) all succeed
for a feature object.  The cast sits inside the per-row statements, so it is
evaluated once per visited `(feature_key, element)` pair — exactly once per
element of `triggerFeaturePairs` (a key over an empty array is never cast) —
and it succeeds exactly when the key is one of the `feature_type` enum labels.
The key `ingredients` (plural) that `extractFeatures` emits is not a label
(`featureTypeNames` carries only the singular `ingredient`), so it makes the
cast raise `invalid input value for enum feature_type`. -/
def triggerKeysValid (features : List (String × FeatureValue)) : Bool :=
  (triggerFeaturePairs features).all fun kv => featureTypeNames.contains kv.1

/-- The whole trigger body `update_preference_weights` (SQL 496-566) acting on
the rated profile's weight rows: first the per-feature upserts with the
rating's delta, each inserted row casting its key through
`feature_key::feature_type` (lines 525, 535), then — in addition — one `-0.2`
penalty upsert per excluded ingredient under the literal (always valid) type
`'ingredient'`.  When some feature key fails the enum cast the trigger raises
and PostgreSQL rolls the whole rating transaction back — the rating row and
every weight change — so the observable effect is all-or-nothing: `none`
models the aborted rating (store unchanged, no deltas, no penalty). -/
def update_preference_weights (e : RatingEvent)
    (store : List StoredWeight) : Option (List StoredWeight) :=
  if triggerKeysValid e.features then
    let delta := getRatingDelta e.rating
    let s1 := (triggerFeaturePairs e.features).foldl
      (fun s kv => upsertClamped delta kv.1 kv.2 s) store
    some (e.excluded_ingredients.foldl (fun s ing => upsertExcluded ing s) s1)
  else none

/-- A sequence of rating insertions, each firing the trigger once; an
insertion whose trigger raises is rolled back and leaves the store
unchanged. -/
def applyRatingEvents (events : List RatingEvent)
    (store : List StoredWeight) : List StoredWeight :=
  events.foldl (fun s e => (update_preference_weights e s).getD s) store

/-- The stored weight of a key, if present. -/
def lookupWeight (store : List StoredWeight) (ft fv : String) : Option ℚ :=
  (store.find? (fun w => w.feature_type == ft && w.feature_value == fv)).map (·.weight)

/-- The effective weight of a key: the stored weight, or `0` when the key has
no row yet (a fresh insert starts from delta `= 0 + delta`, and absent keys
contribute `0` to every score). -/
def effWeight (store : List StoredWeight) (ft fv : String) : ℚ :=
  (lookupWeight store ft fv).getD 0

/-- All stored weights lie in `[-1, 1]`. -/
def weightsInBounds (store : List StoredWeight) : Prop :=
  ∀ w ∈ store, -1 ≤ w.weight ∧ w.weight ≤ 1

/-- A household profile as `getFamilySuggestions` selects it (line 104-107). -/
structure HouseholdProfile where
  id : String
  display_name : String
deriving DecidableEq

/-- A recipe row, restricted to the fields the recommendation code reads. -/
structure Recipe where
  id : String
  name : String
  image_url : Option String
  features : List (String × FeatureValue)
  external_rating : Option ℚ
deriving DecidableEq

/-- `FamilyScoredRecipe` (src/lib/types.ts 303-309). -/
structure FamilyScoredRecipe where
  recipe_id : String
  recipe_name : String
  image_url : Option String
  min_score : ℚ
  scores : List (String × ℚ)
deriving DecidableEq

/-- `Math.round(q * 100) / 100`; JS `Math.round x = ⌊x + 1/2⌋`, which is
Mathlib's `round` on `ℚ`. -/
def round2 (q : ℚ) : ℚ := (round (q * 100) : ℤ) / 100

/-- The weight rows `getFamilySuggestions` hands to `calculateScore` for one
profile: the household's rows filtered by `profile_id` (lines 124-130, 149). -/
def profileWeights (allWeights : List PreferenceWeight) (pid : String) :
    List PreferenceWeight :=
  allWeights.filter (fun w => w.profile_id == pid)

/-- One member's score for one recipe inside the family loop (line 150). -/
def profileScore (allWeights : List PreferenceWeight)
    (features : List (String × FeatureValue)) (p : HouseholdProfile) : ℚ :=
  calculateScore features (profileWeights allWeights p.id)

/-- The `minScore` accumulator (lines 146-153): starts at `Infinity` and takes
`Math.min` with each member's score; `none` plays the role of `Infinity`
(no member folded yet). -/
def minScoreLoop (scores : List ℚ) : Option ℚ :=
  scores.foldl (fun acc s =>
    match acc with
    | none => some s
    | some m => some (min m s)) none

/-- The body of the per-recipe loop (lines 144-166): individual scores are
stored rounded to 2 decimals, the recipe is kept exactly when the *unrounded*
minimum is `≥ 0`, and the kept entry stores the *rounded* minimum.  (The
`none` branch cannot occur in `getFamilySuggestions`, which returns early when
the household has no profiles.) -/
def scoreRecipeForFamily (profiles : List HouseholdProfile)
    (allWeights : List PreferenceWeight) (r : Recipe) : Option FamilyScoredRecipe :=
  match minScoreLoop (profiles.map fun p => profileScore allWeights r.features p) with
  | none => none
  | some m =>
    if 0 ≤ m then
      some ⟨r.id, r.name, r.image_url, round2 m,
        profiles.map fun p => (p.display_name, round2 (profileScore allWeights r.features p))⟩
    else none

/-- The `familyScored` array after the loop (lines 142-166). -/
def familyScored (profiles : List HouseholdProfile)
    (allWeights : List PreferenceWeight) (recipes : List Recipe) :
    List FamilyScoredRecipe :=
  recipes.filterMap (scoreRecipeForFamily profiles allWeights)

/-- The sort comparator of line 169, `(a, b) => b.min_score - a.min_score`:
descending in the stored (rounded) `min_score`, stable on ties. -/
def minScoreBefore (a b : FamilyScoredRecipe) : Bool :=
  decide (b.min_score ≤ a.min_score)

/-- `getFamilySuggestions(householdId, authHeader, limit)` (lines 96-172) as a
function of the data its queries return: the household's profiles, the
household's weight rows, and the recipe pool in query order.  Empty household:
empty result.  Else: score every pool recipe per member, keep those with
non-negative unrounded minimum, sort by the stored rounded `min_score`
descending (stable), truncate to `limit`. -/
def getFamilySuggestions (profiles : List HouseholdProfile)
    (allWeights : List PreferenceWeight) (recipes : List Recipe)
    (limit : ℕ) : List FamilyScoredRecipe :=
  if profiles.isEmpty then []
  else (stableSort minScoreBefore (familyScored profiles allWeights recipes)).take limit

/-- `NULLS LAST` comparison for external ratings sorted descending: `a` may
come before `b` iff `b`'s rating is at most `a`'s, a null rating counting
below every real one. -/
def popLE : Option ℚ → Option ℚ → Bool
  | none, _ => true
  | some _, none => false
  | some a, some b => decide (a ≤ b)

/-- `r` may precede `s` under `ORDER BY external_rating DESC NULLS LAST`. -/
def popBefore (r s : Recipe) : Bool := popLE s.external_rating r.external_rating

/-- `getNextRecipeToRate(profileId, authHeader)` (lines 182-237) over the data
its queries return: the catalog, the ids of the profile's rated recipes (whose
number is the profile's rating count), and the index JS `Math.random` would
pick in the established branch.  Cold start (fewer than 20 ratings): the
single head of the popularity-ordered unrated list.  Established: a pick among
the top 20. -/
def getNextRecipeToRate (catalog : List Recipe) (ratedIds : List String)
    (randIdx : ℕ) : Option Recipe :=
  let unrated := stableSort popBefore (catalog.filter (fun r => !(ratedIds.contains r.id)))
  let recipes := if ratedIds.length < 20 then unrated.take 1 else unrated.take 20
  if recipes.isEmpty then none
  else if ratedIds.length < 20 then recipes.head?
  else recipes.get? (randIdx % recipes.length)

/-- Modelled from the spec: the route `GET /api/recipes/next`
(src/app/api/recipes/suggest/route.ts 254-259) calls `getNextRecipeToRate`
with a third `exclude` argument, but the copy of `src/lib/recommendation.ts`
in this tree declares only two parameters, so the exclusion code itself is
missing from the sources.  Spec §4.5: "Exclude all recipes the profile has
already rated, and optionally one caller-specified recipe."  This definition
is `getNextRecipeToRate` with that one extra filter. -/
def getNextRecipeToRateEx (catalog : List Recipe) (ratedIds : List String)
    (excludeId : Option String) (randIdx : ℕ) : Option Recipe :=
  let unrated := stableSort popBefore (catalog.filter
    (fun r => !(ratedIds.contains r.id) && !(excludeId == some r.id)))
  let recipes := if ratedIds.length < 20 then unrated.take 1 else unrated.take 20
  if recipes.isEmpty then none
  else if ratedIds.length < 20 then recipes.head?
  else recipes.get? (randIdx % recipes.length)

/-! ## The SQL functions `calculate_recipe_score`, `get_next_recipe_to_rate`,
`get_family_suggestions` (recommendation.ts SQL, 569-692).  No route calls
them (the app uses the TS implementations above), but they are part of the
sources and differ from the TS versions at two visible points: the strict
`min_score > 0` filter, and the `RANDOM()` tie-break. -/

/-- A `preference_weights` row as the SQL functions select it. -/
structure SqlWeightRow where
  profile_id : String
  feature_type : String
  feature_value : String
  weight : ℚ
deriving DecidableEq

/-- `SELECT weight … WHERE profile_id = … AND feature_type = … AND
feature_value = …` (the key is unique, so at most one row). -/
def sqlLookupWeight (rows : List SqlWeightRow) (pid ft fv : String) : Option ℚ :=
  (rows.find? fun r =>
    r.profile_id == pid && r.feature_type == ft && r.feature_value == fv).map (·.weight)

/-- `calculate_recipe_score(p_profile_id, p_recipe_id)` (lines 569-611): the
same additive rule as the TS `calculateScore`, over the same JSONB iteration
the trigger uses (scalar features keyed by their quoted JSONB text), and with
the trigger's `feature_key::feature_type` casts (lines 589, 600): a feature
key outside the enum — such as the `ingredients` key `extractFeatures`
stores — makes the function raise instead of returning a score, modelled as
`none`. -/
def calculate_recipe_score (rows : List SqlWeightRow) (pid : String)
    (features : List (String × FeatureValue)) : Option ℚ :=
  if triggerKeysValid features then
    some (((triggerFeaturePairs features).map fun kv =>
      (sqlLookupWeight rows pid kv.1 kv.2).getD 0).sum)
  else none

/-- One result row of the SQL `get_family_suggestions`. -/
structure SqlFamilyRow where
  recipe_id : String
  recipe_name : String
  image_url : Option String
  min_score : ℚ
  scores : List (String × ℚ)
deriving DecidableEq

/-- `ORDER BY min_score DESC` comparator. -/
def sqlMinBefore (a b : SqlFamilyRow) : Bool := decide (b.min_score ≤ a.min_score)

/-- `get_family_suggestions(p_household_id, p_limit)` (lines 647-692): score
every recipe for every household profile via `calculate_recipe_score`,
aggregate `MIN(score)` per recipe, keep the rows `WHERE min_score > 0`
(strict), order by `min_score DESC`, truncate to the limit.  An empty
household produces no cross-join rows, hence no score calls and no result
rows; with members present, one recipe whose features fail the enum cast
makes `calculate_recipe_score` — and so the whole query — raise (`none`). -/
def get_family_suggestions (profiles : List HouseholdProfile)
    (rows : List SqlWeightRow) (recipes : List Recipe) (plimit : ℕ) :
    Option (List SqlFamilyRow) :=
  if !profiles.isEmpty && !(recipes.all fun r => triggerKeysValid r.features) then
    none
  else
    some ((stableSort sqlMinBefore (recipes.filterMap fun r =>
      match minScoreLoop (profiles.map fun p =>
          (calculate_recipe_score rows p.id r.features).getD 0) with
      | none => none
      | some m =>
        if 0 < m then
          some ⟨r.id, r.name, r.image_url, m,
            profiles.map fun p =>
              (p.display_name, (calculate_recipe_score rows p.id r.features).getD 0)⟩
        else none)).take plimit)

/-- `ORDER BY external_rating DESC NULLS LAST, RANDOM()`: ties in the rating
order are broken by each row's random draw, modelled by `tie`. -/
def sqlOrderBefore (tie : String → ℚ) (a b : Recipe) : Bool :=
  if popLE a.external_rating b.external_rating && popLE b.external_rating a.external_rating then
    decide (tie a.id ≤ tie b.id)
  else popBefore a b

/-- `get_next_recipe_to_rate(p_profile_id)` (lines 614-644): the top unrated
recipe under rating-descending order with nulls last and a `RANDOM()`
tie-break — one branch for every rating count, no cold-start case split. -/
def get_next_recipe_to_rate (catalog : List Recipe) (ratedIds : List String)
    (tie : String → ℚ) : Option Recipe :=
  (stableSort (sqlOrderBefore tie)
    (catalog.filter (fun r => !(ratedIds.contains r.id)))).head?

/-- An ingredient entry (`Ingredient`, src/lib/types.ts 185-189). -/
structure Ingredient where
  amount : String
  ingredient : String
  unit : Option String := none
deriving DecidableEq

/-- `PROTEIN_KEYWORDS` (features.ts 11-42), in object insertion order. -/
def PROTEIN_KEYWORDS : List (String × String) :=
  [("nötfärs", "beef"), ("köttfärs", "beef"), ("fläskfärs", "pork"),
   ("blandfärs", "mixed_meat"), ("kyckling", "chicken"), ("kycklingfilé", "chicken"),
   ("lax", "salmon"), ("torsk", "cod"), ("räkor", "shrimp"), ("fisk", "fish"),
   ("bacon", "pork"), ("skinka", "ham"), ("korv", "sausage"), ("ägg", "egg"),
   ("tofu", "tofu"), ("linser", "lentils"), ("bönor", "beans"),
   ("kikärtor", "chickpeas"), ("fläsk", "pork"), ("lamm", "lamb"),
   ("beef", "beef"), ("chicken", "chicken"), ("pork", "pork"),
   ("salmon", "salmon"), ("fish", "fish"), ("shrimp", "shrimp"),
   ("egg", "egg"), ("eggs", "egg")]

/-- `CARB_KEYWORDS` (features.ts 44-60). -/
def CARB_KEYWORDS : List (String × String) :=
  [("pasta", "pasta"), ("spaghetti", "pasta"), ("penne", "pasta"),
   ("tagliatelle", "pasta"), ("ris", "rice"), ("rice", "rice"),
   ("potatis", "potato"), ("potato", "potato"), ("bröd", "bread"),
   ("bread", "bread"), ("couscous", "couscous"), ("nudlar", "noodles"),
   ("noodles", "noodles"), ("bulgur", "bulgur"), ("quinoa", "quinoa")]

/-- `CUISINE_KEYWORDS` (features.ts 62-90). -/
def CUISINE_KEYWORDS : List (String × String) :=
  [("sojasås", "asian"), ("soy sauce", "asian"), ("ingefära", "asian"),
   ("ginger", "asian"), ("wasabi", "japanese"), ("miso", "japanese"),
   ("curry", "indian"), ("garam masala", "indian"), ("tikka", "indian"),
   ("tandoori", "indian"), ("taco", "mexican"), ("salsa", "mexican"),
   ("tortilla", "mexican"), ("parmesan", "italian"), ("mozzarella", "italian"),
   ("basilika", "italian"), ("pesto", "italian"), ("feta", "greek"),
   ("tzatziki", "greek"), ("hummus", "middle_eastern"), ("tahini", "middle_eastern"),
   ("harissa", "middle_eastern"), ("lingon", "swedish"), ("dill", "swedish"),
   ("grädde", "swedish"), ("cream", "swedish")]

/-- `SPICE_INDICATORS` (features.ts 92-103); levels as their string values. -/
def SPICE_INDICATORS : List (String × String) :=
  [("chili", "hot"), ("jalapeño", "hot"), ("habanero", "hot"),
   ("sriracha", "hot"), ("cayenne", "hot"), ("sambal", "hot"),
   ("curry", "medium"), ("paprika", "mild"), ("peppar", "mild"),
   ("pepper", "mild")]

/-- The lowercased text blob (features.ts 117-120): recipe name and every
ingredient name, joined by single spaces. -/
def allTextOf (ingredients : List Ingredient) (recipeName : String) : String :=
  String.intercalate " "
    (toLowerCase recipeName :: ingredients.map (fun i => toLowerCase i.ingredient))

/-- JS `Set` insertion: append only when the value is new (first occurrence
keeps its position). -/
def insertSetOrder (l : List String) (x : String) : List String :=
  if x ∈ l then l else l ++ [x]

/-- The protein set (features.ts 123-131): canonical values of all matching
keywords, deduplicated in first-match order. -/
def proteinsOf (blob : String) : List String :=
  PROTEIN_KEYWORDS.foldl
    (fun acc kv => if strIncludes blob (toLowerCase kv.1) then insertSetOrder acc kv.2 else acc)
    []

/-- The carb feature (features.ts 134-139): the first matching table entry. -/
def carbOf (blob : String) : Option String :=
  (CARB_KEYWORDS.find? (fun kv => strIncludes blob (toLowerCase kv.1))).map (·.2)

/-- Increment a cuisine's count in the counts object, or append it with count 1
(object keys keep insertion order). -/
def bumpCount (c : String) : List (String × ℕ) → List (String × ℕ)
  | [] => [(c, 1)]
  | p :: ps => if p.1 == c then (p.1, p.2 + 1) :: ps else p :: bumpCount c ps

/-- `cuisineCounts` (features.ts 142-147): per-cuisine hit counts over the
keyword table, keyed in first-hit order. -/
def cuisineCounts (blob : String) : List (String × ℕ) :=
  CUISINE_KEYWORDS.foldl
    (fun acc kv => if strIncludes blob (toLowerCase kv.1) then bumpCount kv.2 acc else acc)
    []

/-- The comparator of `.sort((a, b) => b[1] - a[1])`: descending by count,
stable on ties. -/
def countBefore (a b : String × ℕ) : Bool := decide (b.2 ≤ a.2)

/-- `topCuisine` (features.ts 149-150): the first entry of the count-descending
stable sort of the counts object. -/
def topCuisine (blob : String) : Option (String × ℕ) :=
  (stableSort countBefore (cuisineCounts blob)).head?

/-- The spice loop (features.ts 156-166): default `mild`; a matching `medium`
keyword escalates and the scan continues; a matching `hot` keyword escalates
and stops. -/
def spiceLoop (blob : String) : List (String × String) → String → String
  | [], acc => acc
  | (kw, lvl) :: rest, acc =>
    if strIncludes blob (toLowerCase kw) then
      if lvl == "hot" then "hot"
      else if lvl == "medium" then spiceLoop blob rest "medium"
      else spiceLoop blob rest acc
    else spiceLoop blob rest acc

def spiceLevelOf (blob : String) : String := spiceLoop blob SPICE_INDICATORS "mild"

/-- The prep-time bucket (features.ts 170-179) for a positive total time. -/
def prepBucket (totalTime : ℕ) : String :=
  if totalTime ≤ 30 then "quick" else if totalTime ≤ 60 then "medium" else "long"

/-- The descriptor words of the `normalizeIngredient` regexes
(features.ts 202-203). -/
def DESCRIPTOR_WORDS : List String :=
  ["färsk", "hackad", "strimlad", "skivad", "riven", "kokt", "stekt", "tärnad"]

/-- JS `trim` on a character list. -/
def trimChars (l : List Char) : List Char :=
  ((l.dropWhile Char.isWhitespace).reverse.dropWhile Char.isWhitespace).reverse

/-- `^(word)\s+`: if the string starts with `w` followed by whitespace, drop
the word and the whitespace run. -/
def tryStripLeading (w : String) (l : List Char) : Option (List Char) :=
  if w.data.isPrefixOf l then
    match l.drop w.length with
    | c :: rest =>
      if c.isWhitespace then some ((c :: rest).dropWhile Char.isWhitespace) else none
    | [] => none
  else none

def stripLeadingDescriptor (l : List Char) : List Char :=
  (DESCRIPTOR_WORDS.findSome? (fun w => tryStripLeading w l)).getD l

/-- `\s+(word)$`: the mirrored strip at the end of the string, performed by
stripping the reversed word from the front of the reversed string. -/
def stripTrailingDescriptor (l : List Char) : List Char :=
  (DESCRIPTOR_WORDS.findSome?
    (fun w => (tryStripLeading ⟨w.data.reverse⟩ l.reverse).map List.reverse)).getD l

/-- One attempt of the regex `\s*\([^)]*\)\s*` at the current position:
optional whitespace, `(`, a run of non-`)` characters, `)`, trailing
whitespace; yields the remainder after the match. -/
def parenMatch (l : List Char) : Option (List Char) :=
  match l.dropWhile Char.isWhitespace with
  | '(' :: rest =>
    match rest.dropWhile (fun c => !(c == ')')) with
    | ')' :: after => some (after.dropWhile Char.isWhitespace)
    | _ => none
  | _ => none

/-- Global replacement of `\s*\([^)]*\)\s*` by the empty string: at each
position, delete a match if one starts here, else keep the character.  The
fuel argument only bounds the recursion; every step strictly shrinks the list
(a match consumes at least the two parentheses), so fuel equal to the input
length is never exhausted. -/
def removeParensGo : ℕ → List Char → List Char
  | 0, l => l
  | fuel + 1, l =>
    match parenMatch l with
    | some rest => removeParensGo fuel rest
    | none =>
      match l with
      | [] => []
      | c :: cs => c :: removeParensGo fuel cs

def removeParens (l : List Char) : List Char := removeParensGo l.length l

/-- `normalizeIngredient` (features.ts 197-207): lowercase, trim, strip one
leading descriptor word (`^(word)\s+`), strip one trailing descriptor word
(`\s+(word)$`), delete every parenthetical note, trim again. -/
def normalizeIngredient (ingredient : String) : String :=
  let l1 := trimChars (toLowerCase ingredient).data
  let l2 := stripLeadingDescriptor l1
  let l3 := stripTrailingDescriptor l2
  ⟨trimChars (removeParens l3)⟩

/-- `extractFeatures(ingredients, recipeName, prepTime?, cookTime?)`
(features.ts 108-192): the feature object's entries in assignment order —
`protein`, `carb`, `cuisine`, `spice_level`, `prep_time_bucket`,
`ingredients` — each present only under the source's condition. -/
def extractFeatures (ingredients : List Ingredient) (recipeName : String)
    (prepTime cookTime : Option ℕ) : List (String × FeatureValue) :=
  let allText := allTextOf ingredients recipeName
  let proteins := proteinsOf allText
  let proteinEntry :=
    if proteins.length > 0 then [("protein", FeatureValue.arr proteins)] else []
  let carbEntry :=
    match carbOf allText with
    | some c => [("carb", FeatureValue.scalar c)]
    | none => []
  let cuisineEntry :=
    match topCuisine allText with
    | some p => [("cuisine", FeatureValue.scalar p.1)]
    | none => []
  let spiceEntry := [("spice_level", FeatureValue.scalar (spiceLevelOf allText))]
  let totalTime := prepTime.getD 0 + cookTime.getD 0
  let prepEntry :=
    if totalTime > 0 then [("prep_time_bucket", FeatureValue.scalar (prepBucket totalTime))]
    else []
  let keyIngredients :=
    ((ingredients.map (fun i => normalizeIngredient i.ingredient)).filter
      (fun s => s.length > 2)).take 10
  let ingrEntry :=
    if keyIngredients.length > 0 then [("ingredients", FeatureValue.arr keyIngredients)]
    else []
  proteinEntry ++ carbEntry ++ cuisineEntry ++ spiceEntry ++ prepEntry ++ ingrEntry

/-- The count the counts object records for cuisine `c` (0 when absent). -/
def cuisineCountOf (counts : List (String × ℕ)) (c : String) : ℕ :=
  ((counts.find? (fun p => p.1 == c)).map (·.2)).getD 0

/-- Spec-side hit count: how many keywords of the fixed table that map to `c`
match the blob. -/
def cuisineHits (blob : String) (c : String) : ℕ :=
  (CUISINE_KEYWORDS.filter
    (fun kv => kv.2 == c && strIncludes blob (toLowerCase kv.1))).length

/-! ## Theorems -/

theorem mem_insertSorted {before : α → α → Bool} {x y : α} {l : List α} :
    y ∈ insertSorted before x l ↔ y = x ∨ y ∈ l := by
  induction l with
  | nil => simp [insertSorted]
  | cons a as ih =>
    by_cases h : before x a = true <;>
      simp [insertSorted, h, ih, or_assoc, or_left_comm]

theorem mem_stableSort {before : α → α → Bool} {y : α} {l : List α} :
    y ∈ stableSort before l ↔ y ∈ l := by
  induction l with
  | nil => simp [stableSort]
  | cons a as ih => simp [stableSort, mem_insertSorted, ih]

/-- The head of a stable sort under a total, transitive `before` relation
dominates every element of the input list. -/
theorem head_stableSort_dominates {before : α → α → Bool}
    (htot : ∀ a b, before a b = true ∨ before b a = true)
    (htrans : ∀ a b c, before a b = true → before b c = true → before a c = true)
    {l : List α} {h : α} (hh : (stableSort before l).head? = some h) :
    ∀ y ∈ l, before h y = true := by
  have hrefl : ∀ a, before a a = true := fun a => (htot a a).elim id id
  induction l generalizing h with
  | nil => simp [stableSort] at hh
  | cons a as ih =>
    rcases hs : stableSort before as with _ | ⟨m, rest⟩
    · have hempty : as = [] := by
        cases as with
        | nil => rfl
        | cons b bs =>
          exfalso
          have hb : b ∈ stableSort before (b :: bs) := mem_stableSort.2 (by simp)
          rw [hs] at hb
          simp at hb
      subst hempty
      simp only [stableSort, hs, insertSorted, List.head?_cons, Option.some_inj] at hh
      subst hh
      intro y hy
      simp only [List.mem_singleton] at hy
      subst hy
      exact hrefl y
    · have hm : ∀ y ∈ as, before m y = true := ih (by rw [hs]; rfl)
      simp only [stableSort] at hh
      rw [hs] at hh
      by_cases hc : before a m = true
      · rw [insertSorted, if_pos hc] at hh
        simp only [List.head?_cons, Option.some_inj] at hh
        subst hh
        intro y hy
        rcases List.mem_cons.1 hy with rfl | hy
        · exact hrefl y
        · exact htrans _ m y hc (hm y hy)
      · rw [insertSorted, if_neg hc] at hh
        simp only [List.head?_cons, Option.some_inj] at hh
        subst hh
        intro y hy
        rcases List.mem_cons.1 hy with rfl | hy
        · rcases htot y m with h' | h'
          · exact absurd h' hc
          · exact h'
        · exact hm y hy

/-! ## Data model shared by scoring and weight updating

`RecipeFeatures` (TS `src/lib/types.ts` 191-200) is a JSON object whose values
are either a single string or an array of strings; we model the object as its
entry list in insertion order, which is the order `Object.entries` /
`jsonb_each`-as-stored yield to the loops that consume it. -/

theorem append_colon_inj : ∀ (f : List Char) {g v w : List Char},
    ':' ∉ f → ':' ∉ g → f ++ ':' :: v = g ++ ':' :: w → f = g ∧ v = w := by
  intro f
  induction f with
  | nil =>
    intro g v w _ hg h
    cases g with
    | nil => simpa using h
    | cons c cs =>
      exfalso
      simp only [List.nil_append, List.cons_append, List.cons.injEq] at h
      exact hg (h.1 ▸ List.mem_cons_self _ _)
  | cons c cs ih =>
    intro g v w hf hg h
    cases g with
    | nil =>
      exfalso
      simp only [List.cons_append, List.nil_append, List.cons.injEq] at h
      exact hf (h.1 ▸ List.mem_cons_self _ _)
    | cons d ds =>
      simp only [List.cons_append, List.cons.injEq] at h
      obtain ⟨rfl, h2⟩ := h
      have := ih (fun hm => hf (List.mem_cons_of_mem _ hm))
        (fun hm => hg (List.mem_cons_of_mem _ hm)) h2
      exact ⟨by rw [this.1], this.2⟩

theorem featureKey_data (ft v : String) :
    (featureKey ft v).data = ft.data ++ ':' :: v.data := by
  simp [featureKey, String.data_append]

theorem featureKey_inj {a b c d : String} (ha : noColon a) (hc : noColon c) :
    featureKey a b = featureKey c d ↔ a = c ∧ b = d := by
  constructor
  · intro h
    have hd : (featureKey a b).data = (featureKey c d).data := by rw [h]
    rw [featureKey_data, featureKey_data] at hd
    have := append_colon_inj a.data ha hc hd
    exact ⟨String.ext this.1, String.ext this.2⟩
  · rintro ⟨rfl, rfl⟩; rfl

theorem mapGet_mapSet (m : List (String × ℚ)) (k : String) (v : ℚ) (k' : String) :
    mapGet (mapSet m k v) k' = if k == k' then some v else mapGet m k' := by
  induction m with
  | nil =>
    by_cases h : k = k' <;> simp [mapSet, mapGet, List.find?_cons, h]
  | cons p ps ih =>
    by_cases hp : p.1 = k
    · by_cases h : k = k' <;>
        simp [mapSet, mapGet, List.find?_cons, hp, h]
    · by_cases h : p.1 = k'
      · have hne : ¬ k = k' := fun hk => hp (by rw [hk, h])
        have hne' : ¬ k' = k := fun hk => hne hk.symm
        cases p with
        | mk p1 p2 =>
          simp only at hp h
          subst h
          simp [mapSet, mapGet, List.find?_cons, hne, hne']
      · simpa [mapSet, mapGet, List.find?_cons, hp, h] using ih

theorem mapGet_foldl_mapSet (ws : List PreferenceWeight) :
    ∀ (m : List (String × ℚ)) (k : String),
    mapGet (ws.foldl (fun m w => mapSet m (weightKey w) w.weight) m) k =
      ((ws.reverse.find? fun w => weightKey w == k).map (·.weight)).or (mapGet m k) := by
  induction ws with
  | nil => simp
  | cons w ws ih =>
    intro m k
    simp only [List.foldl_cons, List.reverse_cons, List.find?_append]
    rw [ih]
    rcases hf : ws.reverse.find? fun w => weightKey w == k with _ | w'
    · simp only [Option.map_none', Option.none_or]
      rw [mapGet_mapSet]
      rcases hk : weightKey w == k with _ | _
      · simp [List.find?, hk]
      · simp [List.find?, hk]
    · simp [Option.or]

/-- The weight map of `calculateScore` realises last-one-wins lookup over the
weight rows. -/
theorem mapGet_buildWeightMap (ws : List PreferenceWeight) (k : String) :
    mapGet (buildWeightMap ws) k =
      (ws.reverse.find? fun w => weightKey w == k).map (·.weight) := by
  rw [buildWeightMap, mapGet_foldl_mapSet]
  simp [mapGet]

theorem bool_eq_of_iff {a b : Bool} (h : a = true ↔ b = true) : a = b := by
  cases a <;> cases b <;> simp_all

/-- Colon-freedom of the fixed feature-type enumeration. -/
theorem noColon_featureTypeNames : ∀ s ∈ featureTypeNames, noColon s := by decide

/-- Colon-freedom of the fixed `RecipeFeatures` key set. -/
theorem noColon_recipeFeatureKeys : ∀ s ∈ recipeFeatureKeys, noColon s := by decide

/-- When the keys are pairwise distinct, searching the reversed list finds the
same (unique) entry as searching forwards. -/
theorem find?_reverse_of_nodup {β : Type _} {l : List β} {f : β → String} {k : String}
    (hnd : (l.map f).Nodup) :
    l.reverse.find? (fun x => f x == k) = l.find? (fun x => f x == k) := by
  induction l with
  | nil => simp
  | cons x xs ih =>
    simp only [List.map_cons, List.nodup_cons] at hnd
    obtain ⟨hx, hxs⟩ := hnd
    simp only [List.reverse_cons, List.find?_append]
    by_cases hk : f x = k
    · have hnone : xs.reverse.find? (fun y => f y == k) = none := by
        rw [List.find?_eq_none]
        intro y hy
        simp only [beq_iff_eq]
        intro hyk
        exact hx (hyk.trans hk.symm ▸ List.mem_map_of_mem f (List.mem_reverse.1 hy))
      rw [hnone]
      simp [List.find?_cons, hk]
    · have hxk : (f x == k) = false := by simpa using hk
      rw [ih hxs]
      simp [List.find?_cons, hxk, Option.or_none]

theorem find?_congr_mem {β : Type _} {l : List β} {p q : β → Bool}
    (h : ∀ x ∈ l, p x = q x) : l.find? p = l.find? q := by
  induction l with
  | nil => rfl
  | cons a as ih =>
    have ha := h a (List.mem_cons_self _ _)
    simp only [List.find?_cons, ha]
    cases q a
    · exact ih fun x hx => h x (List.mem_cons_of_mem _ hx)
    · rfl

theorem nodup_map_inj_on {β γ : Type _} {l : List β} {f : β → γ}
    (hinj : ∀ x ∈ l, ∀ y ∈ l, f x = f y → x = y) (h : l.Nodup) : (l.map f).Nodup := by
  induction l with
  | nil => simp
  | cons a as ih =>
    simp only [List.nodup_cons] at h
    simp only [List.map_cons, List.nodup_cons, List.mem_map]
    refine ⟨?_, ih (fun x hx y hy => hinj x (List.mem_cons_of_mem _ hx)
      y (List.mem_cons_of_mem _ hy)) h.2⟩
    rintro ⟨x, hx, hfx⟩
    exact h.1 (hinj x (List.mem_cons_of_mem _ hx) a (List.mem_cons_self _ _) hfx ▸ hx)

/-- Distinct `(feature_type, feature_value)` pairs over the fixed type
enumeration yield distinct string lookup keys. -/
theorem nodup_weightKeys {ws : List PreferenceWeight}
    (hw : ∀ w ∈ ws, w.feature_type ∈ featureTypeNames)
    (hnd : (ws.map fun w => (w.feature_type, w.feature_value)).Nodup) :
    (ws.map weightKey).Nodup := by
  have : ws.map weightKey =
      (ws.map fun w => (w.feature_type, w.feature_value)).map
        (fun p => featureKey p.1 p.2) := by
    simp [weightKey, Function.comp]
  rw [this]
  refine nodup_map_inj_on ?_ hnd
  rintro ⟨t1, v1⟩ h1 ⟨t2, v2⟩ h2 hf
  obtain ⟨w1, hw1, he1⟩ := List.mem_map.1 h1
  obtain ⟨w2, hw2, he2⟩ := List.mem_map.1 h2
  have hc1 : noColon t1 := by
    have := noColon_featureTypeNames _ (hw w1 hw1)
    rwa [show w1.feature_type = t1 from congrArg Prod.fst he1] at this
  have hc2 : noColon t2 := by
    have := noColon_featureTypeNames _ (hw w2 hw2)
    rwa [show w2.feature_type = t2 from congrArg Prod.fst he2] at this
  have hp := (featureKey_inj hc1 hc2).1 hf
  obtain ⟨ht, hv⟩ := hp
  simp only at ht hv
  rw [ht, hv]

/-- The string-keyed map lookup of `calculateScore` coincides with a direct
`(feature_type, feature_value)` pair search when the pairs are unique and all
types come from the fixed enumeration. -/
theorem lookup_eq_pair_find {ws : List PreferenceWeight} {ft v : String}
    (hft : noColon ft)
    (hw : ∀ w ∈ ws, w.feature_type ∈ featureTypeNames)
    (hnd : (ws.map fun w => (w.feature_type, w.feature_value)).Nodup) :
    mapGet (buildWeightMap ws) (featureKey ft v) =
      (ws.find? fun w => w.feature_type == ft && w.feature_value == v).map (·.weight) := by
  rw [mapGet_buildWeightMap, find?_reverse_of_nodup (nodup_weightKeys hw hnd)]
  congr 1
  apply find?_congr_mem
  intro w hwmem
  have hcol : noColon w.feature_type := noColon_featureTypeNames _ (hw w hwmem)
  apply bool_eq_of_iff
  simp only [beq_iff_eq, Bool.and_eq_true]
  exact featureKey_inj hcol hft

/-- **C2.** For every feature set and every weight list whose
`(feature_type, feature_value)` keys occur at most once, with feature keys
drawn from the `RecipeFeatures` interface and weight types from the
`feature_type` enumeration, `calculateScore` equals the sum of the weights of
exactly the `(type, value)` pairs present in both the feature set (as the
scalar value, or as a member of an array feature) and the weight list; pairs
present in only one side contribute `0`, never a penalty. -/
theorem C2_score_additivity (features : List (String × FeatureValue))
    (ws : List PreferenceWeight)
    (hk : ∀ p ∈ features, p.1 ∈ recipeFeatureKeys)
    (hw : ∀ w ∈ ws, w.feature_type ∈ featureTypeNames)
    (hnd : (ws.map fun w => (w.feature_type, w.feature_value)).Nodup) :
    calculateScore features ws = specScoreSum features ws := by
  induction features with
  | nil => simp [calculateScore, specScoreSum, featurePairs]
  | cons p ps ih =>
    have hph := hk p (List.mem_cons_self _ _)
    have ihs := ih fun q hq => hk q (List.mem_cons_of_mem _ hq)
    simp only [calculateScore, specScoreSum, featurePairs, List.map_cons,
      List.sum_cons, List.flatMap_cons, List.map_append, List.sum_append] at *
    rw [← ihs]
    congr 1
    rcases p with ⟨ft, fv⟩
    have hcol : noColon ft := noColon_recipeFeatureKeys _ hph
    cases fv with
    | scalar v =>
      simp [scoreFeatureEntry, lookup_eq_pair_find hcol hw hnd]
    | arr vals =>
      simp only [scoreFeatureEntry, List.map_map]
      congr 1
      apply List.map_congr_left
      intro v _
      simp [Function.comp, lookup_eq_pair_find hcol hw hnd]

/-- Witness for C2: a concrete recipe (array and scalar features) against a
concrete weight list with one matching array member, one matching scalar, one
weight absent from the features and one feature value absent from the weights. -/
theorem C2_score_additivity_witness :
    (∀ p ∈ [("protein", FeatureValue.arr ["beef", "pork"]),
            ("cuisine", FeatureValue.scalar "italian"),
            ("carb", FeatureValue.scalar "rice")], p.1 ∈ recipeFeatureKeys) ∧
    calculateScore
      [("protein", FeatureValue.arr ["beef", "pork"]),
       ("cuisine", FeatureValue.scalar "italian"),
       ("carb", FeatureValue.scalar "rice")]
      [⟨"p1", "protein", "beef", 15/100⟩,
       ⟨"p1", "cuisine", "italian", -8/100⟩,
       ⟨"p1", "spice_level", "hot", 1⟩] =
    specScoreSum
      [("protein", FeatureValue.arr ["beef", "pork"]),
       ("cuisine", FeatureValue.scalar "italian"),
       ("carb", FeatureValue.scalar "rice")]
      [⟨"p1", "protein", "beef", 15/100⟩,
       ⟨"p1", "cuisine", "italian", -8/100⟩,
       ⟨"p1", "spice_level", "hot", 1⟩] :=
  ⟨by decide, C2_score_additivity _ _ (by decide) (by decide) (by decide)⟩

/-! ## WeightUpdater: the trigger `update_preference_weights`
(SQL part of src/lib/recommendation.ts, lines 496-566) -/

theorem clampWeight_bounds (q : ℚ) : -1 ≤ clampWeight q ∧ clampWeight q ≤ 1 :=
  ⟨le_max_left _ _, max_le (by norm_num) (min_le_left _ _)⟩

theorem getRatingDelta_bounds (r : RatingValue) :
    -1 ≤ getRatingDelta r ∧ getRatingDelta r ≤ 1 := by
  cases r <;> norm_num [getRatingDelta]

theorem upsertClamped_bounds {delta : ℚ} (hd : -1 ≤ delta ∧ delta ≤ 1)
    {ft fv : String} {s : List StoredWeight} (h : weightsInBounds s) :
    weightsInBounds (upsertClamped delta ft fv s) := by
  induction s with
  | nil =>
    intro w hw
    simp only [upsertClamped, List.mem_singleton] at hw
    subst hw
    exact hd
  | cons a as ih =>
    intro w hw
    by_cases ha : (a.feature_type == ft && a.feature_value == fv) = true
    · rw [upsertClamped, if_pos ha] at hw
      rcases List.mem_cons.1 hw with rfl | hw
      · exact clampWeight_bounds _
      · exact h w (List.mem_cons_of_mem _ hw)
    · rw [upsertClamped, if_neg ha] at hw
      rcases List.mem_cons.1 hw with rfl | hw
      · exact h w (List.mem_cons_self _ _)
      · exact ih (fun x hx => h x (List.mem_cons_of_mem _ hx)) w hw

theorem upsertExcluded_bounds {ing : String} {s : List StoredWeight}
    (h : weightsInBounds s) : weightsInBounds (upsertExcluded ing s) := by
  induction s with
  | nil =>
    intro w hw
    simp only [upsertExcluded, List.mem_singleton] at hw
    subst hw
    norm_num
  | cons a as ih =>
    intro w hw
    by_cases ha : (a.feature_type == "ingredient" && a.feature_value == ing) = true
    · rw [upsertExcluded, if_pos ha] at hw
      rcases List.mem_cons.1 hw with rfl | hw
      · refine ⟨le_max_left _ _, max_le (by norm_num) ?_⟩
        have := (h a (List.mem_cons_self _ _)).2
        linarith
      · exact h w (List.mem_cons_of_mem _ hw)
    · rw [upsertExcluded, if_neg ha] at hw
      rcases List.mem_cons.1 hw with rfl | hw
      · exact h w (List.mem_cons_self _ _)
      · exact ih (fun x hx => h x (List.mem_cons_of_mem _ hx)) w hw

theorem foldl_upsertClamped_bounds {delta : ℚ} (hd : -1 ≤ delta ∧ delta ≤ 1)
    (pairs : List (String × String)) {s : List StoredWeight}
    (h : weightsInBounds s) :
    weightsInBounds (pairs.foldl (fun s kv => upsertClamped delta kv.1 kv.2 s) s) := by
  induction pairs generalizing s with
  | nil => exact h
  | cons kv rest ih => exact ih (upsertClamped_bounds hd h)

theorem foldl_upsertExcluded_bounds (ings : List String) {s : List StoredWeight}
    (h : weightsInBounds s) :
    weightsInBounds (ings.foldl (fun s ing => upsertExcluded ing s) s) := by
  induction ings generalizing s with
  | nil => exact h
  | cons ing rest ih => exact ih (upsertExcluded_bounds h)

theorem update_preference_weights_bounds (e : RatingEvent) {s : List StoredWeight}
    (h : weightsInBounds s) :
    weightsInBounds ((update_preference_weights e s).getD s) := by
  rw [update_preference_weights]
  by_cases hv : triggerKeysValid e.features = true
  · rw [if_pos hv, Option.getD_some]
    exact foldl_upsertExcluded_bounds _
      (foldl_upsertClamped_bounds (getRatingDelta_bounds e.rating) _ h)
  · rw [if_neg hv, Option.getD_none]
    exact h

theorem applyRatingEvents_bounds (events : List RatingEvent) {s : List StoredWeight}
    (h : weightsInBounds s) : weightsInBounds (applyRatingEvents events s) := by
  induction events generalizing s with
  | nil => exact h
  | cons e rest ih => exact ih (update_preference_weights_bounds e h)

theorem lookup_upsertClamped_self (delta : ℚ) (ft fv : String)
    (s : List StoredWeight) :
    lookupWeight (upsertClamped delta ft fv s) ft fv =
      some (match lookupWeight s ft fv with
            | none => delta
            | some w => clampWeight (w + delta)) := by
  induction s with
  | nil => simp [upsertClamped, lookupWeight, List.find?]
  | cons a as ih =>
    by_cases ha : (a.feature_type == ft && a.feature_value == fv) = true
    · rw [upsertClamped, if_pos ha]
      simp [lookupWeight, List.find?_cons, ha]
    · rw [upsertClamped, if_neg ha]
      have ha' : (a.feature_type == ft && a.feature_value == fv) = false := by
        simpa using ha
      simpa [lookupWeight, List.find?_cons, ha'] using ih

theorem beq_pair_false_of_ne {a b c d : String} (hne : ¬(c = a ∧ d = b)) :
    (a == c && b == d) = false := by
  rcases h : (a == c && b == d) with _ | _
  · rfl
  · exfalso
    simp only [Bool.and_eq_true, beq_iff_eq] at h
    exact hne ⟨h.1.symm, h.2.symm⟩

theorem lookup_upsertClamped_ne (delta : ℚ) {ft fv ft' fv' : String}
    (hne : ¬(ft' = ft ∧ fv' = fv)) (s : List StoredWeight) :
    lookupWeight (upsertClamped delta ft fv s) ft' fv' = lookupWeight s ft' fv' := by
  induction s with
  | nil =>
    have hf : (ft == ft' && fv == fv') = false := beq_pair_false_of_ne hne
    simp [upsertClamped, lookupWeight, List.find?, hf]
  | cons a as ih =>
    by_cases ha : (a.feature_type == ft && a.feature_value == fv) = true
    · rw [upsertClamped, if_pos ha]
      simp only [Bool.and_eq_true, beq_iff_eq] at ha
      have hfalse : (a.feature_type == ft' && a.feature_value == fv') = false :=
        beq_pair_false_of_ne (fun hc => hne ⟨hc.1.trans ha.1, hc.2.trans ha.2⟩)
      simp [lookupWeight, List.find?_cons, hfalse]
    · rw [upsertClamped, if_neg ha]
      rcases hb : (a.feature_type == ft' && a.feature_value == fv') with _ | _
      · simpa [lookupWeight, List.find?_cons, hb] using ih
      · simp [lookupWeight, List.find?_cons, hb]

theorem lookup_upsertExcluded_self (ing : String) (s : List StoredWeight) :
    lookupWeight (upsertExcluded ing s) "ingredient" ing =
      some (match lookupWeight s "ingredient" ing with
            | none => -(2/10)
            | some w => max (-1) (w - 2/10)) := by
  induction s with
  | nil => simp [upsertExcluded, lookupWeight, List.find?]
  | cons a as ih =>
    by_cases ha : (a.feature_type == "ingredient" && a.feature_value == ing) = true
    · rw [upsertExcluded, if_pos ha]
      simp [lookupWeight, List.find?_cons, ha]
    · rw [upsertExcluded, if_neg ha]
      have ha' : (a.feature_type == "ingredient" && a.feature_value == ing) = false := by
        simpa using ha
      simpa [lookupWeight, List.find?_cons, ha'] using ih

theorem lookup_upsertExcluded_ne {ing ft' fv' : String}
    (hne : ¬(ft' = "ingredient" ∧ fv' = ing)) (s : List StoredWeight) :
    lookupWeight (upsertExcluded ing s) ft' fv' = lookupWeight s ft' fv' := by
  induction s with
  | nil =>
    have hf : (("ingredient" : String) == ft' && ing == fv') = false :=
      beq_pair_false_of_ne hne
    simp [upsertExcluded, lookupWeight, List.find?, hf]
  | cons a as ih =>
    by_cases ha : (a.feature_type == "ingredient" && a.feature_value == ing) = true
    · rw [upsertExcluded, if_pos ha]
      simp only [Bool.and_eq_true, beq_iff_eq] at ha
      have hfalse : (a.feature_type == ft' && a.feature_value == fv') = false :=
        beq_pair_false_of_ne (fun hc => hne ⟨hc.1.trans ha.1, hc.2.trans ha.2⟩)
      simp [lookupWeight, List.find?_cons, hfalse]
    · rw [upsertExcluded, if_neg ha]
      rcases hb : (a.feature_type == ft' && a.feature_value == fv') with _ | _
      · simpa [lookupWeight, List.find?_cons, hb] using ih
      · simp [lookupWeight, List.find?_cons, hb]

theorem effWeight_upsertClamped_ne (delta : ℚ) {ft fv ft' fv' : String}
    (hne : ¬(ft' = ft ∧ fv' = fv)) (s : List StoredWeight) :
    effWeight (upsertClamped delta ft fv s) ft' fv' = effWeight s ft' fv' := by
  unfold effWeight
  rw [lookup_upsertClamped_ne _ hne]

theorem effWeight_upsertExcluded_ne {ing ft' fv' : String}
    (hne : ¬(ft' = "ingredient" ∧ fv' = ing)) (s : List StoredWeight) :
    effWeight (upsertExcluded ing s) ft' fv' = effWeight s ft' fv' := by
  unfold effWeight
  rw [lookup_upsertExcluded_ne hne]

theorem lookup_foldl_upsertClamped_ne (delta : ℚ) {ft' fv' : String}
    (pairs : List (String × String))
    (hne : ∀ kv ∈ pairs, ¬(ft' = kv.1 ∧ fv' = kv.2)) (s : List StoredWeight) :
    lookupWeight (pairs.foldl (fun s kv => upsertClamped delta kv.1 kv.2 s) s) ft' fv' =
      lookupWeight s ft' fv' := by
  induction pairs generalizing s with
  | nil => rfl
  | cons kv rest ih =>
    rw [List.foldl_cons, ih (fun q hq => hne q (List.mem_cons_of_mem _ hq)),
      lookup_upsertClamped_ne _ (hne kv (List.mem_cons_self _ _)) s]

theorem lookup_foldl_upsertExcluded_ne {ft' fv' : String} (ings : List String)
    (hne : ∀ ing ∈ ings, ¬(ft' = "ingredient" ∧ fv' = ing)) (s : List StoredWeight) :
    lookupWeight (ings.foldl (fun s ing => upsertExcluded ing s) s) ft' fv' =
      lookupWeight s ft' fv' := by
  induction ings generalizing s with
  | nil => rfl
  | cons ing rest ih =>
    rw [List.foldl_cons, ih (fun q hq => hne q (List.mem_cons_of_mem _ hq)),
      lookup_upsertExcluded_ne (hne ing (List.mem_cons_self _ _)) s]

theorem effWeight_upsertClamped_self (delta : ℚ) (ft fv : String) (s : List StoredWeight)
    (hlo : -1 ≤ effWeight s ft fv + delta) (hhi : effWeight s ft fv + delta ≤ 1) :
    effWeight (upsertClamped delta ft fv s) ft fv = effWeight s ft fv + delta := by
  unfold effWeight at *
  rw [lookup_upsertClamped_self]
  rcases h : lookupWeight s ft fv with _ | w
  · simp
  · rw [h] at hlo hhi
    simp only [Option.getD_some] at hlo hhi ⊢
    rw [clampWeight, min_eq_right hhi, max_eq_right hlo]

theorem effWeight_upsertExcluded_self (ing : String) (s : List StoredWeight)
    (hge : -(8/10) ≤ effWeight s "ingredient" ing) :
    effWeight (upsertExcluded ing s) "ingredient" ing =
      effWeight s "ingredient" ing - 2/10 := by
  unfold effWeight at *
  rw [lookup_upsertExcluded_self]
  rcases h : lookupWeight s "ingredient" ing with _ | w
  · norm_num
  · rw [h] at hge
    simp only [Option.getD_some] at hge ⊢
    rw [max_eq_right (by linarith)]

theorem effWeight_foldl_upsertClamped_count_one (delta : ℚ) (ft v : String)
    (pairs : List (String × String)) (s : List StoredWeight)
    (hcount : pairs.count (ft, v) = 1)
    (hlo : -1 ≤ effWeight s ft v + delta) (hhi : effWeight s ft v + delta ≤ 1) :
    effWeight (pairs.foldl (fun s kv => upsertClamped delta kv.1 kv.2 s) s) ft v =
      effWeight s ft v + delta := by
  induction pairs generalizing s with
  | nil => simp [List.count] at hcount
  | cons kv rest ih =>
    obtain ⟨k1, k2⟩ := kv
    rw [List.foldl_cons]
    by_cases hk : (k1, k2) = (ft, v)
    · injection hk with h1 h2
      subst h1
      subst h2
      have hzero : rest.count (k1, k2) = 0 := by
        rw [List.count_cons] at hcount
        have hb : ((k1, k2) == (k1, k2)) = true := by simp
        rw [hb] at hcount
        simp only [if_true] at hcount
        omega
      have hnotin : (k1, k2) ∉ rest := List.count_eq_zero.1 hzero
      have hne : ∀ q ∈ rest, ¬(k1 = q.1 ∧ k2 = q.2) := by
        rintro q hq ⟨h1, h2⟩
        refine hnotin ?_
        have hq' : q = (k1, k2) := Prod.ext h1.symm h2.symm
        rwa [hq'] at hq
      unfold effWeight
      rw [lookup_foldl_upsertClamped_ne _ rest hne]
      exact effWeight_upsertClamped_self delta k1 k2 s hlo hhi
    · have hne1 : ¬(ft = k1 ∧ v = k2) := by
        rintro ⟨h1, h2⟩
        exact hk (by rw [← h1, ← h2])
      have hrest : rest.count (ft, v) = 1 := by
        rw [List.count_cons] at hcount
        have hkb : ((k1, k2) == (ft, v)) = false := by
          simpa using hk
        rw [hkb] at hcount
        simpa using hcount
      have heq := effWeight_upsertClamped_ne delta hne1 s
      have hlo' : -1 ≤ effWeight (upsertClamped delta k1 k2 s) ft v + delta := by
        rw [heq]; exact hlo
      have hhi' : effWeight (upsertClamped delta k1 k2 s) ft v + delta ≤ 1 := by
        rw [heq]; exact hhi
      rw [ih (upsertClamped delta k1 k2 s) hrest hlo' hhi', heq]

theorem effWeight_foldl_upsertExcluded_count_one (name : String) (ings : List String)
    (s : List StoredWeight) (hcount : ings.count name = 1)
    (hge : -(8/10) ≤ effWeight s "ingredient" name) :
    effWeight (ings.foldl (fun s ing => upsertExcluded ing s) s) "ingredient" name =
      effWeight s "ingredient" name - 2/10 := by
  induction ings generalizing s with
  | nil => simp [List.count] at hcount
  | cons ing rest ih =>
    rw [List.foldl_cons]
    by_cases hk : ing = name
    · have hzero : rest.count name = 0 := by
        rw [List.count_cons] at hcount
        have hkb : (ing == name) = true := by simpa using hk
        rw [hkb] at hcount
        simp only [if_true] at hcount
        omega
      have hnotin : name ∉ rest := List.count_eq_zero.1 hzero
      have hne : ∀ q ∈ rest, ¬(("ingredient" : String) = "ingredient" ∧ name = q) := by
        rintro q hq ⟨_, h2⟩
        exact hnotin (h2 ▸ hq)
      unfold effWeight
      rw [lookup_foldl_upsertExcluded_ne rest hne]
      rw [hk]
      exact effWeight_upsertExcluded_self name s hge
    · have hne1 : ¬(("ingredient" : String) = "ingredient" ∧ name = ing) := by
        rintro ⟨_, h2⟩
        exact hk h2.symm
      have hrest : rest.count name = 1 := by
        rw [List.count_cons] at hcount
        have hkb : (ing == name) = false := by simpa using hk
        rw [hkb] at hcount
        simpa using hcount
      have heq := effWeight_upsertExcluded_ne hne1 s
      have hge' : -(8/10) ≤ effWeight (upsertExcluded ing s) "ingredient" name := by
        rw [heq]; exact hge
      rw [ih (upsertExcluded ing s) hrest hge', heq]

/-- **C3.** For every sequence of rating events (any rating values, any
excluded-ingredient sets) applied by the trigger to one profile's weight rows
(starting from none), every stored weight satisfies `-1.0 ≤ weight ≤ 1.0` after
every event; and clamping is saturating: a key at a bound is left at the bound
by any further same-direction delta, including the excluded-ingredient penalty
at the lower bound. -/
theorem C3_weight_clamping :
    (∀ (events : List RatingEvent), ∀ w ∈ applyRatingEvents events [],
        -1 ≤ w.weight ∧ w.weight ≤ 1) ∧
    (∀ (s : List StoredWeight) (d : ℚ) (ft fv : String),
        lookupWeight s ft fv = some 1 → 0 ≤ d →
        lookupWeight (upsertClamped d ft fv s) ft fv = some 1) ∧
    (∀ (s : List StoredWeight) (d : ℚ) (ft fv : String),
        lookupWeight s ft fv = some (-1) → d ≤ 0 →
        lookupWeight (upsertClamped d ft fv s) ft fv = some (-1)) ∧
    (∀ (s : List StoredWeight) (ing : String),
        lookupWeight s "ingredient" ing = some (-1) →
        lookupWeight (upsertExcluded ing s) "ingredient" ing = some (-1)) := by
  refine ⟨?_, ?_, ?_, ?_⟩
  · intro events w hw
    exact applyRatingEvents_bounds events (by intro x hx; simp at hx) w hw
  · intro s d ft fv hl hd
    rw [lookup_upsertClamped_self, hl]
    have hc : clampWeight (1 + d) = 1 := by
      rw [clampWeight, min_eq_left (by linarith)]
      exact max_eq_right (by norm_num)
    simp [hc]
  · intro s d ft fv hl hd
    rw [lookup_upsertClamped_self, hl]
    have hc : clampWeight (-1 + d) = -1 := by
      rw [clampWeight, min_eq_right (by linarith)]
      exact max_eq_left (by linarith)
    simp [hc]
  · intro s ing hl
    rw [lookup_upsertExcluded_self, hl]
    have hc : max (-1 : ℚ) (-1 - 2/10) = -1 := max_eq_left (by norm_num)
    simp [hc]

/-- Witness for C3: the upper bound is held under a further positive delta on a
concrete saturated store, and a concrete event sequence (a hated rating with an
excluded ingredient) keeps every resulting weight inside `[-1, 1]`. -/
theorem C3_weight_clamping_witness :
    (lookupWeight [(⟨"cuisine", "x", 1, 3⟩ : StoredWeight)] "cuisine" "x" = some 1 ∧
      (0 : ℚ) ≤ 15/100) ∧
    lookupWeight (upsertClamped (15/100) "cuisine" "x" [⟨"cuisine", "x", 1, 3⟩])
      "cuisine" "x" = some 1 ∧
    (∀ w ∈ applyRatingEvents
        [⟨RatingValue.hated, [("cuisine", FeatureValue.scalar "indian")], ["lax"]⟩] [],
      -1 ≤ w.weight ∧ w.weight ≤ 1) := by
  refine ⟨⟨rfl, by norm_num⟩, ?_, ?_⟩
  · exact C3_weight_clamping.2.1 _ _ _ _ rfl (by norm_num)
  · intro w hw
    exact C3_weight_clamping.1 _ w hw

/-- Under enum-valid feature keys the trigger commits and performs exactly the
claimed updates: the `-0.2` penalty on each excluded name in addition to the
ordinary per-feature deltas.  (The program's own recipes never satisfy the
validity premise once `extractFeatures` has stored an `ingredients` key — see
the C4 theorem below.) -/
theorem update_preference_weights_valid_event
    (e : RatingEvent) (s : List StoredWeight) (name ft v : String)
    (hvalid : triggerKeysValid e.features = true)
    (hexc : e.excluded_ingredients.count name = 1)
    (hfeat : ∀ kv ∈ triggerFeaturePairs e.features,
      ¬(("ingredient" : String) = kv.1 ∧ name = kv.2))
    (hprior : -(8/10) ≤ effWeight s "ingredient" name)
    (hkv : (triggerFeaturePairs e.features).count (ft, v) = 1)
    (hpen : ∀ ing ∈ e.excluded_ingredients, ¬(ft = "ingredient" ∧ v = ing))
    (hlo : -1 ≤ effWeight s ft v + getRatingDelta e.rating)
    (hhi : effWeight s ft v + getRatingDelta e.rating ≤ 1) :
    ∃ s', update_preference_weights e s = some s' ∧
      effWeight s' "ingredient" name = effWeight s "ingredient" name - 2/10 ∧
      effWeight s' ft v = effWeight s ft v + getRatingDelta e.rating := by
  have hsome : update_preference_weights e s =
      some (e.excluded_ingredients.foldl (fun s ing => upsertExcluded ing s)
        ((triggerFeaturePairs e.features).foldl
          (fun s kv => upsertClamped (getRatingDelta e.rating) kv.1 kv.2 s) s)) := by
    rw [update_preference_weights, if_pos hvalid]
  refine ⟨_, hsome, ?_, ?_⟩
  · have h1 : effWeight ((triggerFeaturePairs e.features).foldl
        (fun s kv => upsertClamped (getRatingDelta e.rating) kv.1 kv.2 s) s)
        "ingredient" name = effWeight s "ingredient" name := by
      unfold effWeight
      rw [lookup_foldl_upsertClamped_ne _ _ hfeat]
    have hprior' : -(8/10) ≤ effWeight ((triggerFeaturePairs e.features).foldl
        (fun s kv => upsertClamped (getRatingDelta e.rating) kv.1 kv.2 s) s)
        "ingredient" name := by
      rw [h1]; exact hprior
    rw [effWeight_foldl_upsertExcluded_count_one name _ _ hexc hprior', h1]
  · have h2 := effWeight_foldl_upsertClamped_count_one (getRatingDelta e.rating) ft v
      (triggerFeaturePairs e.features) s hkv hlo hhi
    have h3 : effWeight (e.excluded_ingredients.foldl
        (fun s ing => upsertExcluded ing s)
        ((triggerFeaturePairs e.features).foldl
          (fun s kv => upsertClamped (getRatingDelta e.rating) kv.1 kv.2 s) s)) ft v =
        effWeight ((triggerFeaturePairs e.features).foldl
          (fun s kv => upsertClamped (getRatingDelta e.rating) kv.1 kv.2 s) s) ft v := by
      unfold effWeight
      rw [lookup_foldl_upsertExcluded_ne _ hpen]
    rw [h3, h2]

/-- **C4.** Code bug: the claim describes the intended penalty-in-addition
behaviour (spec 4.2 and the spec's own scenario, README "Handles ingredient
exclusions"), but the code cannot deliver it on the program's own recipes.
The scenario's input — a `liked` rating of a recipe whose stored features are
`cuisine: "swedish"` and `ingredients: ["lax", "pasta"]` (the `ingredients`
key `extractFeatures` emits and every seed recipe carries), excluding `lax` —
fails the `'ingredients'::feature_type` enum cast (SQL line 525, enum label is
the singular `ingredient`): the trigger raises, the whole rating transaction
rolls back, and neither the `-0.2` penalty nor any feature delta is applied —
no weight row exists afterwards at all. -/
theorem C4_trigger_rejects_ingredients_key :
    triggerKeysValid [("cuisine", FeatureValue.scalar "swedish"),
      ("ingredients", FeatureValue.arr ["lax", "pasta"])] = false ∧
    update_preference_weights
      ⟨RatingValue.liked,
       [("cuisine", FeatureValue.scalar "swedish"),
        ("ingredients", FeatureValue.arr ["lax", "pasta"])],
       ["lax"]⟩ [] = none ∧
    applyRatingEvents
      [⟨RatingValue.liked,
        [("cuisine", FeatureValue.scalar "swedish"),
         ("ingredients", FeatureValue.arr ["lax", "pasta"])],
        ["lax"]⟩] [] = [] ∧
    lookupWeight (applyRatingEvents
      [⟨RatingValue.liked,
        [("cuisine", FeatureValue.scalar "swedish"),
         ("ingredients", FeatureValue.arr ["lax", "pasta"])],
        ["lax"]⟩] []) "ingredient" "lax" = none ∧
    lookupWeight (applyRatingEvents
      [⟨RatingValue.liked,
        [("cuisine", FeatureValue.scalar "swedish"),
         ("ingredients", FeatureValue.arr ["lax", "pasta"])],
        ["lax"]⟩] []) "cuisine" (jsonbText "swedish") = none := by
  have hv : triggerKeysValid [("cuisine", FeatureValue.scalar "swedish"),
      ("ingredients", FeatureValue.arr ["lax", "pasta"])] = false := by decide
  have hu : update_preference_weights
      ⟨RatingValue.liked,
       [("cuisine", FeatureValue.scalar "swedish"),
        ("ingredients", FeatureValue.arr ["lax", "pasta"])],
       ["lax"]⟩ [] = none := by
    rw [update_preference_weights]
    simp [hv]
  have ha : applyRatingEvents
      [⟨RatingValue.liked,
        [("cuisine", FeatureValue.scalar "swedish"),
         ("ingredients", FeatureValue.arr ["lax", "pasta"])],
        ["lax"]⟩] [] = [] := by
    rw [applyRatingEvents, List.foldl_cons, List.foldl_nil, hu]
    rfl
  refine ⟨hv, hu, ha, ?_, ?_⟩
  · rw [ha]; rfl
  · rw [ha]; rfl

/-! ## FamilyAggregator and NextRecipeSelector (TS, recommendation.ts 96-237) -/

theorem minScoreLoop_some (l : List ℚ) (m : ℚ) :
    l.foldl (fun acc s =>
      match acc with
      | none => some s
      | some m => some (min m s)) (some m) = some (l.foldl min m) := by
  induction l generalizing m with
  | nil => rfl
  | cons a as ih => simp [List.foldl_cons, ih]

/-- The `Infinity`-seeded `Math.min` fold computes the list minimum. -/
theorem minScoreLoop_eq_min? (l : List ℚ) : minScoreLoop l = l.min? := by
  cases l with
  | nil => rfl
  | cons a as =>
    rw [minScoreLoop, List.foldl_cons]
    exact minScoreLoop_some as a

theorem foldl_min_le_init (l : List ℚ) (i : ℚ) : l.foldl min i ≤ i := by
  induction l generalizing i with
  | nil => exact le_refl i
  | cons c cs ih =>
    rw [List.foldl_cons]
    exact le_trans (ih (min i c)) (min_le_left _ _)

theorem foldl_min_le_mem (l : List ℚ) (i x : ℚ) (hx : x ∈ l) : l.foldl min i ≤ x := by
  induction l generalizing i with
  | nil => simp at hx
  | cons c cs ih =>
    rw [List.foldl_cons]
    rcases List.mem_cons.1 hx with rfl | hx
    · exact le_trans (foldl_min_le_init cs (min i x)) (min_le_right _ _)
    · exact ih (min i c) hx

theorem minScoreLoop_le_mem {l : List ℚ} {m x : ℚ}
    (hm : minScoreLoop l = some m) (hx : x ∈ l) : m ≤ x := by
  cases l with
  | nil => simp [minScoreLoop] at hm
  | cons a as =>
    rw [minScoreLoop, List.foldl_cons] at hm
    rw [minScoreLoop_some] at hm
    obtain rfl : as.foldl min a = m := by simpa using hm
    rcases List.mem_cons.1 hx with rfl | hx
    · exact foldl_min_le_init as x
    · exact foldl_min_le_mem as a x hx

/-- **C1.** For every household and recipe, the group score `getFamilySuggestions`
computes (the `Math.min` fold seeded at `Infinity`, before display rounding)
equals the minimum of the individual `calculateScore` values of all household
profiles; in particular, whenever one profile scores the recipe negatively, the
group score is at most that profile's score. -/
theorem C1_group_score_is_min (profiles : List HouseholdProfile)
    (allWeights : List PreferenceWeight)
    (features : List (String × FeatureValue)) :
    minScoreLoop (profiles.map (profileScore allWeights features)) =
      (profiles.map (profileScore allWeights features)).min? ∧
    (∀ p ∈ profiles, ∀ m,
      minScoreLoop (profiles.map (profileScore allWeights features)) = some m →
      profileScore allWeights features p < 0 →
      m ≤ profileScore allWeights features p) := by
  refine ⟨minScoreLoop_eq_min? _, ?_⟩
  intro p hp m hm _
  exact minScoreLoop_le_mem hm (List.mem_map_of_mem _ hp)

/-- Witness for C1: a two-member household where one member scores the fish
recipe `-0.6` and the other `+0.5`; the group score is `-0.6`, which is the
minimum and at most the negative member's score. -/
theorem C1_group_score_is_min_witness :
    minScoreLoop ([(⟨"p1", "Anna"⟩ : HouseholdProfile), ⟨"p2", "Bo"⟩].map
        (profileScore
          [⟨"p1", "cuisine", "fish", -(6/10)⟩, ⟨"p2", "cuisine", "fish", 5/10⟩]
          [("cuisine", FeatureValue.scalar "fish")])) =
      ([(⟨"p1", "Anna"⟩ : HouseholdProfile), ⟨"p2", "Bo"⟩].map
        (profileScore
          [⟨"p1", "cuisine", "fish", -(6/10)⟩, ⟨"p2", "cuisine", "fish", 5/10⟩]
          [("cuisine", FeatureValue.scalar "fish")])).min? ∧
    ((⟨"p1", "Anna"⟩ : HouseholdProfile) ∈
        [(⟨"p1", "Anna"⟩ : HouseholdProfile), ⟨"p2", "Bo"⟩] ∧
      minScoreLoop ([(⟨"p1", "Anna"⟩ : HouseholdProfile), ⟨"p2", "Bo"⟩].map
        (profileScore
          [⟨"p1", "cuisine", "fish", -(6/10)⟩, ⟨"p2", "cuisine", "fish", 5/10⟩]
          [("cuisine", FeatureValue.scalar "fish")])) = some (-(6/10)) ∧
      profileScore
          [⟨"p1", "cuisine", "fish", -(6/10)⟩, ⟨"p2", "cuisine", "fish", 5/10⟩]
          [("cuisine", FeatureValue.scalar "fish")] ⟨"p1", "Anna"⟩ < 0 ∧
      -(6/10) ≤ profileScore
          [⟨"p1", "cuisine", "fish", -(6/10)⟩, ⟨"p2", "cuisine", "fish", 5/10⟩]
          [("cuisine", FeatureValue.scalar "fish")] ⟨"p1", "Anna"⟩) := by
  have h := C1_group_score_is_min
    [(⟨"p1", "Anna"⟩ : HouseholdProfile), ⟨"p2", "Bo"⟩]
    [⟨"p1", "cuisine", "fish", -(6/10)⟩, ⟨"p2", "cuisine", "fish", 5/10⟩]
    [("cuisine", FeatureValue.scalar "fish")]
  have hscore : profileScore
      [⟨"p1", "cuisine", "fish", -(6/10)⟩, ⟨"p2", "cuisine", "fish", 5/10⟩]
      [("cuisine", FeatureValue.scalar "fish")] ⟨"p1", "Anna"⟩ = -(6/10) := by
    norm_num [profileScore, profileWeights, calculateScore, scoreFeatureEntry,
      buildWeightMap, mapSet, mapGet, weightKey, featureKey, List.find?]
  have hmin : minScoreLoop ([(⟨"p1", "Anna"⟩ : HouseholdProfile), ⟨"p2", "Bo"⟩].map
      (profileScore
        [⟨"p1", "cuisine", "fish", -(6/10)⟩, ⟨"p2", "cuisine", "fish", 5/10⟩]
        [("cuisine", FeatureValue.scalar "fish")])) = some (-(6/10)) := by
    norm_num [minScoreLoop, profileScore, profileWeights, calculateScore,
      scoreFeatureEntry, buildWeightMap, mapSet, mapGet, weightKey, featureKey,
      List.find?, min_def]
  refine ⟨h.1, List.mem_cons_self _ _, hmin, ?_, ?_⟩
  · rw [hscore]; norm_num
  · have := h.2 ⟨"p1", "Anna"⟩ (List.mem_cons_self _ _) (-(6/10)) hmin
      (by rw [hscore]; norm_num)
    exact this

/-! ## FeatureExtractor: `extractFeatures` (src/lib/features.ts 108-207) -/

/-- Every key `extractFeatures` can emit. -/
theorem extractFeatures_keys (ingredients : List Ingredient) (recipeName : String)
    (prepTime cookTime : Option ℕ) :
    ∀ p ∈ extractFeatures ingredients recipeName prepTime cookTime,
      p.1 ∈ (["protein", "carb", "cuisine", "spice_level", "prep_time_bucket",
        "ingredients"] : List String) := by
  intro p hp
  simp only [extractFeatures, List.mem_append] at hp
  rcases hp with ((((h | h) | h) | h) | h) | h
  · split at h <;> simp_all
  · rcases hc : carbOf (allTextOf ingredients recipeName) with _ | c <;>
      rw [hc] at h <;> simp_all
  · rcases hc : topCuisine (allTextOf ingredients recipeName) with _ | q <;>
      rw [hc] at h <;> simp_all
  · simp_all
  · split at h <;> simp_all
  · split at h <;> simp_all

theorem find?_filter_of_imp {β : Type _} {l : List β} {p q : β → Bool}
    (h : ∀ x ∈ l, q x = true → p x = true) :
    (l.filter p).find? q = l.find? q := by
  induction l with
  | nil => rfl
  | cons a as ih =>
    by_cases hpa : p a = true
    · rw [List.filter_cons_of_pos hpa, List.find?_cons, List.find?_cons]
      cases q a
      · exact ih fun x hx => h x (List.mem_cons_of_mem _ hx)
      · rfl
    · have hqa : q a = false := by
        rcases hq : q a with _ | _
        · rfl
        · exact absurd (h a (List.mem_cons_self _ _) hq) hpa
      rw [List.filter_cons_of_neg (by simpa using hpa), List.find?_cons, hqa]
      simp only [cond_false]
      exact ih fun x hx => h x (List.mem_cons_of_mem _ hx)

/-- Removing all weights of a given colon-free feature type other than `ft`
leaves the lookup at `ft:v` untouched. -/
theorem mapGet_buildWeightMap_filter (ws : List PreferenceWeight) (ft v : String)
    (hft : noColon ft) (hne : ft ≠ "ingredient") :
    mapGet (buildWeightMap (ws.filter (fun w => !(w.feature_type == "ingredient"))))
      (featureKey ft v) = mapGet (buildWeightMap ws) (featureKey ft v) := by
  rw [mapGet_buildWeightMap, mapGet_buildWeightMap, ← List.filter_reverse]
  rw [find?_filter_of_imp]
  intro w _ hq
  simp only [beq_iff_eq] at hq
  rcases hw : (w.feature_type == "ingredient") with _ | _
  · rfl
  · exfalso
    have hwt : w.feature_type = "ingredient" := by simpa using hw
    have hcolw : noColon w.feature_type := by rw [hwt]; decide
    have := (featureKey_inj hcolw hft).1 (by rw [← weightKey]; exact hq)
    exact hne (hwt ▸ this.1.symm)

/-- **C6.** For every recipe run through `extractFeatures` and every weight
list, `calculateScore` is unchanged when all weights of feature type
`ingredient` (singular — the only type the excluded-ingredient penalty writes)
are removed: extracted features store key ingredients under the plural key
`ingredients`, so `ingredient`-typed weights never match a scored feature key,
and exclusion penalties never affect any extracted recipe's score. -/
theorem C6_ingredient_weights_inert (ingredients : List Ingredient)
    (recipeName : String) (prepTime cookTime : Option ℕ)
    (ws : List PreferenceWeight) :
    calculateScore (extractFeatures ingredients recipeName prepTime cookTime) ws =
      calculateScore (extractFeatures ingredients recipeName prepTime cookTime)
        (ws.filter (fun w => !(w.feature_type == "ingredient"))) ∧
    (∀ p ∈ extractFeatures ingredients recipeName prepTime cookTime,
      p.1 ≠ "ingredient") := by
  have hkeys := extractFeatures_keys ingredients recipeName prepTime cookTime
  have hcol : ∀ s ∈ (["protein", "carb", "cuisine", "spice_level",
      "prep_time_bucket", "ingredients"] : List String), noColon s := by decide
  have hnei : ∀ s ∈ (["protein", "carb", "cuisine", "spice_level",
      "prep_time_bucket", "ingredients"] : List String), s ≠ "ingredient" := by decide
  constructor
  · unfold calculateScore
    congr 1
    apply List.map_congr_left
    intro p hp
    have h1 := hcol _ (hkeys p hp)
    have h2 := hnei _ (hkeys p hp)
    rcases p with ⟨ft, fv⟩
    cases fv with
    | scalar v =>
      simp only [scoreFeatureEntry]
      rw [mapGet_buildWeightMap_filter ws ft v h1 h2]
    | arr vals =>
      simp only [scoreFeatureEntry]
      congr 1
      apply List.map_congr_left
      intro v _
      rw [mapGet_buildWeightMap_filter ws ft v h1 h2]
  · intro p hp
    exact hnei _ (hkeys p hp)

/-- Witness for C6: the empty recipe extracts only `spice_level: mild`; an
`ingredient`-typed weight contributes nothing, so the score survives its
removal, and no extracted key is the string `ingredient`. -/
theorem C6_ingredient_weights_inert_witness :
    calculateScore (extractFeatures [] "" none none)
        [⟨"p1", "ingredient", "lax", -(2/10)⟩, ⟨"p1", "spice_level", "mild", 1/10⟩] =
      calculateScore (extractFeatures [] "" none none)
        ([⟨"p1", "ingredient", "lax", -(2/10)⟩,
          ⟨"p1", "spice_level", "mild", 1/10⟩].filter
          (fun w => !(w.feature_type == "ingredient"))) ∧
    ("spice_level", FeatureValue.scalar "mild") ∈ extractFeatures [] "" none none ∧
    ("spice_level" : String) ≠ "ingredient" := by
  have h := C6_ingredient_weights_inert [] "" none none
    [⟨"p1", "ingredient", "lax", -(2/10)⟩, ⟨"p1", "spice_level", "mild", 1/10⟩]
  refine ⟨h.1, by decide, ?_⟩
  exact h.2 ("spice_level", FeatureValue.scalar "mild") (by decide)

theorem cuisineCountOf_bumpCount (acc : List (String × ℕ)) (c' c : String) :
    cuisineCountOf (bumpCount c' acc) c =
      cuisineCountOf acc c + (if c' == c then 1 else 0) := by
  induction acc with
  | nil =>
    by_cases h : c' = c
    · simp [bumpCount, cuisineCountOf, List.find?, h]
    · have hb : (c' == c) = false := by simpa using h
      simp [bumpCount, cuisineCountOf, List.find?, hb]
  | cons p ps ih =>
    by_cases hp : p.1 = c'
    · have hpb : (p.1 == c') = true := by simpa using hp
      by_cases h : c' = c
      · have hcb : (p.1 == c) = true := by simp [hp, h]
        simp [bumpCount, cuisineCountOf, List.find?_cons, hpb, hcb, h]
      · have hb : (c' == c) = false := by simpa using h
        have hcb : (p.1 == c) = false := by
          simp only [beq_eq_false_iff_ne, ne_eq]
          intro hpc
          exact h (hp ▸ hpc)
        simp [bumpCount, cuisineCountOf, List.find?_cons, hpb, hcb, hb]
    · have hpb : (p.1 == c') = false := by simpa using hp
      by_cases hc : p.1 = c
      · have hcb : (p.1 == c) = true := by simpa using hc
        have hb : (c' == c) = false := by
          simp only [beq_eq_false_iff_ne, ne_eq]
          intro hcc
          exact hp (by rw [hc, hcc])
        simp [bumpCount, cuisineCountOf, List.find?_cons, hpb, hcb, hb]
      · have hcb : (p.1 == c) = false := by simpa using hc
        simpa [bumpCount, cuisineCountOf, List.find?_cons, hpb, hcb] using ih

theorem cuisineCounts_foldl (blob : String) (l : List (String × String))
    (acc : List (String × ℕ)) (c : String) :
    cuisineCountOf (l.foldl
      (fun acc kv => if strIncludes blob (toLowerCase kv.1) then bumpCount kv.2 acc else acc)
      acc) c =
    cuisineCountOf acc c +
      (l.filter (fun kv => kv.2 == c && strIncludes blob (toLowerCase kv.1))).length := by
  induction l generalizing acc with
  | nil => simp
  | cons kv rest ih =>
    rw [List.foldl_cons]
    by_cases hm : strIncludes blob (toLowerCase kv.1) = true
    · rw [if_pos hm, ih]
      rw [cuisineCountOf_bumpCount]
      by_cases hc : kv.2 = c
      · rw [List.filter_cons_of_pos (by simp [hc, hm])]
        simp [hc]
        omega
      · rw [List.filter_cons_of_neg (by simp [hc])]
        simp [hc]
    · rw [if_neg hm, ih]
      rw [List.filter_cons_of_neg (by simp [hm])]

/-- `cuisineCounts` records exactly the per-cuisine keyword hit counts. -/
theorem cuisineCountOf_cuisineCounts (blob : String) (c : String) :
    cuisineCountOf (cuisineCounts blob) c = cuisineHits blob c := by
  rw [cuisineCounts, cuisineHits, cuisineCounts_foldl]
  simp [cuisineCountOf]

/-- The head of the count-descending stable sort is the first entry of the
input attaining the maximal count. -/
theorem head_stableSort_first_max {α : Type _} (key : α → ℕ) (l : List α) (p : α)
    (hh : (stableSort (fun a b => decide (key b ≤ key a)) l).head? = some p) :
    l.find? (fun q => decide (key p ≤ key q)) = some p := by
  induction l generalizing p with
  | nil => simp [stableSort] at hh
  | cons x xs ih =>
    rcases hs : stableSort (fun a b => decide (key b ≤ key a)) xs with _ | ⟨m, rest⟩
    · have hempty : xs = [] := by
        cases xs with
        | nil => rfl
        | cons b bs =>
          exfalso
          have hb : b ∈ stableSort (fun a b => decide (key b ≤ key a)) (b :: bs) :=
            mem_stableSort.2 (by simp)
          rw [hs] at hb
          simp at hb
      subst hempty
      simp only [stableSort, hs, insertSorted, List.head?_cons, Option.some_inj] at hh
      subst hh
      simp [List.find?_cons]
    · have hm := ih m (by rw [hs]; rfl)
      simp only [stableSort] at hh
      rw [hs] at hh
      by_cases hc : (decide (key m ≤ key x) : Bool) = true
      · rw [insertSorted, if_pos hc] at hh
        simp only [List.head?_cons, Option.some_inj] at hh
        subst hh
        simp [List.find?_cons]
      · rw [insertSorted, if_neg hc] at hh
        simp only [List.head?_cons, Option.some_inj] at hh
        subst hh
        have hxm : key x < key m := by
          simp only [decide_eq_true_eq] at hc
          omega
        have hxp : (decide (key m ≤ key x) : Bool) = false := by
          simp only [decide_eq_false_iff_not]
          omega
        rw [List.find?_cons, hxp]
        simpa using hm

theorem countBefore_total : ∀ a b : String × ℕ,
    countBefore a b = true ∨ countBefore b a = true := by
  intro a b
  simp only [countBefore, decide_eq_true_eq]
  omega

theorem countBefore_trans : ∀ a b c : String × ℕ,
    countBefore a b = true → countBefore b c = true → countBefore a c = true := by
  intro a b c
  simp only [countBefore, decide_eq_true_eq]
  omega

/-- **C10.** The cuisine feature is chosen by counting, per cuisine, the
matching keywords of the fixed table in the lowercased blob and taking the
entry with the highest count, ties resolved in favour of the first-encountered
cuisine (the `find?` of the first maximal-count entry in first-hit order); when
no keyword matches, the feature is absent. -/
theorem C10_cuisine_selection (ingredients : List Ingredient) (recipeName : String)
    (prepTime cookTime : Option ℕ) :
    (∀ c, cuisineCountOf (cuisineCounts (allTextOf ingredients recipeName)) c =
      cuisineHits (allTextOf ingredients recipeName) c) ∧
    (∀ p, topCuisine (allTextOf ingredients recipeName) = some p →
      ("cuisine", FeatureValue.scalar p.1) ∈
        extractFeatures ingredients recipeName prepTime cookTime ∧
      (∀ q ∈ cuisineCounts (allTextOf ingredients recipeName), q.2 ≤ p.2) ∧
      (cuisineCounts (allTextOf ingredients recipeName)).find?
        (fun q => decide (p.2 ≤ q.2)) = some p) ∧
    (topCuisine (allTextOf ingredients recipeName) = none →
      ∀ fv, ("cuisine", fv) ∉ extractFeatures ingredients recipeName prepTime cookTime) ∧
    ((∀ kv ∈ CUISINE_KEYWORDS,
        strIncludes (allTextOf ingredients recipeName) (toLowerCase kv.1) = false) →
      topCuisine (allTextOf ingredients recipeName) = none) := by
  refine ⟨cuisineCountOf_cuisineCounts _, ?_, ?_, ?_⟩
  · intro p hp
    refine ⟨?_, ?_, ?_⟩
    · simp only [extractFeatures, List.mem_append]
      left; left; left; right
      rw [hp]
      simp
    · intro q hq
      have hd := head_stableSort_dominates countBefore_total countBefore_trans hp q hq
      simpa [countBefore] using hd
    · have hp' : (stableSort (fun a b : String × ℕ => decide (b.2 ≤ a.2))
          (cuisineCounts (allTextOf ingredients recipeName))).head? = some p := hp
      exact head_stableSort_first_max (fun q => q.2)
        (cuisineCounts (allTextOf ingredients recipeName)) p hp'
  · intro hnone fv hmem
    simp only [extractFeatures, List.mem_append] at hmem
    rcases hmem with ((((h | h) | h) | h) | h) | h
    · split at h <;> simp_all
    · rcases hc : carbOf (allTextOf ingredients recipeName) with _ | cb <;>
        rw [hc] at h <;> simp_all
    · rw [hnone] at h
      simp at h
    · simp_all
    · split at h <;> simp_all
    · split at h <;> simp_all
  · intro hnm
    have haux : ∀ (l : List (String × String)),
        (∀ kv ∈ l,
          strIncludes (allTextOf ingredients recipeName) (toLowerCase kv.1) = false) →
        l.foldl (fun acc kv =>
          if strIncludes (allTextOf ingredients recipeName) (toLowerCase kv.1) then
            bumpCount kv.2 acc
          else acc) [] = [] := by
      intro l
      induction l with
      | nil => intro _; rfl
      | cons kv rest ih =>
        intro hall
        rw [List.foldl_cons,
          if_neg (by rw [hall kv (List.mem_cons_self _ _)]; simp)]
        exact ih fun q hq => hall q (List.mem_cons_of_mem _ hq)
    have hcnil : cuisineCounts (allTextOf ingredients recipeName) = [] :=
      haux CUISINE_KEYWORDS hnm
    rw [topCuisine, hcnil]
    rfl

/-- Witness for C10: "pasta med dill och grädde" hits the swedish keywords
`dill` and `grädde` (and no other cuisine keyword), so the cuisine feature is
`swedish` with hit count 2, and it is the first maximal entry of the counts. -/
theorem C10_cuisine_selection_witness :
    topCuisine (allTextOf [] "pasta med dill och grädde") = some ("swedish", 2) ∧
    ("cuisine", FeatureValue.scalar "swedish") ∈
      extractFeatures [] "pasta med dill och grädde" none none ∧
    (cuisineCounts (allTextOf [] "pasta med dill och grädde")).find?
      (fun q => decide ((2 : ℕ) ≤ q.2)) = some ("swedish", 2) := by
  have hp : topCuisine (allTextOf [] "pasta med dill och grädde") =
      some ("swedish", 2) := by decide
  have h := (C10_cuisine_selection [] "pasta med dill och grädde" none none).2.1
    ("swedish", 2) hp
  exact ⟨hp, h.1, h.2.2⟩

theorem foldl_min_mem (as : List ℚ) (a : ℚ) : as.foldl min a ∈ a :: as := by
  induction as generalizing a with
  | nil => simp
  | cons b bs ih =>
    rw [List.foldl_cons]
    have h := ih (min a b)
    rcases List.mem_cons.1 h with h | h
    · rcases min_choice a b with hm | hm <;> rw [h, hm] <;> simp
    · simp [List.mem_cons_of_mem, h]

theorem minScoreLoop_mem {l : List ℚ} {m : ℚ} (hm : minScoreLoop l = some m) :
    m ∈ l := by
  cases l with
  | nil => simp [minScoreLoop] at hm
  | cons a as =>
    rw [minScoreLoop, List.foldl_cons] at hm
    rw [minScoreLoop_some] at hm
    obtain rfl : as.foldl min a = m := by simpa using hm
    exact foldl_min_mem as a

/-- Counterexample for C5: one cold-start profile with no weight rows scores
the recipe `0` — non-negative — yet the SQL `get_family_suggestions`, filtered
`WHERE min_score > 0`, returns an empty row set for it (the recipe's only
feature key `cuisine` passes the enum casts, so the query completes), while
the TS `getFamilySuggestions` (filter `>= 0`) accepts it. -/
theorem C5_sql_strict_filter_counterexample :
    calculate_recipe_score [] "p1" [("cuisine", FeatureValue.scalar "swedish")] = some 0 ∧
    get_family_suggestions [⟨"p1", "Anna"⟩] []
      [⟨"r1", "Meatballs", none, [("cuisine", FeatureValue.scalar "swedish")], some (9/2)⟩]
      10 = some [] ∧
    getFamilySuggestions [⟨"p1", "Anna"⟩] []
      [⟨"r1", "Meatballs", none, [("cuisine", FeatureValue.scalar "swedish")], some (9/2)⟩]
      10 = [⟨"r1", "Meatballs", none, 0, [("Anna", 0)]⟩] := by
  have hv : triggerKeysValid [("cuisine", FeatureValue.scalar "swedish")] = true := by
    decide
  refine ⟨?_, ?_, ?_⟩
  · norm_num [calculate_recipe_score, hv, triggerFeaturePairs, sqlLookupWeight,
      jsonbText, List.find?]
  · norm_num [get_family_suggestions, calculate_recipe_score, hv,
      triggerFeaturePairs, sqlLookupWeight, jsonbText, minScoreLoop, stableSort,
      insertSorted, sqlMinBefore, List.find?, List.filterMap]
  · norm_num [getFamilySuggestions, familyScored, scoreRecipeForFamily,
      minScoreLoop, profileScore, profileWeights, calculateScore,
      scoreFeatureEntry, buildWeightMap, mapSet, mapGet, weightKey, featureKey,
      stableSort, insertSorted, minScoreBefore, round2, round_eq,
      List.find?, List.filterMap]

/-- **C5 (amended).** In the TS `getFamilySuggestions`, a pool recipe enters
the scored list exactly when its unrounded group score is non-negative — the
cold-start all-zero household is accepted, and any member scoring the recipe
negative excludes it — and everything the function returns comes from that
scored list.  (The uncalled SQL `get_family_suggestions` instead filters
`min_score > 0`, so the zero-score cold-start recipe is rejected there, as the
counterexample shows.) -/
theorem C5_family_filter_amended (profiles : List HouseholdProfile)
    (allWeights : List PreferenceWeight) (r : Recipe) :
    (∀ m, minScoreLoop (profiles.map (profileScore allWeights r.features)) = some m →
      ((scoreRecipeForFamily profiles allWeights r).isSome ↔ 0 ≤ m)) ∧
    ((∀ p ∈ profiles, profileScore allWeights r.features p = 0) → profiles ≠ [] →
      (scoreRecipeForFamily profiles allWeights r).isSome) ∧
    ((∃ p ∈ profiles, profileScore allWeights r.features p < 0) →
      scoreRecipeForFamily profiles allWeights r = none) ∧
    (∀ (recipes : List Recipe) (limit : ℕ) (e : FamilyScoredRecipe),
      e ∈ getFamilySuggestions profiles allWeights recipes limit →
      ∃ r' ∈ recipes, scoreRecipeForFamily profiles allWeights r' = some e) := by
  refine ⟨?_, ?_, ?_, ?_⟩
  · intro m hm
    rw [scoreRecipeForFamily, hm]
    by_cases h0 : 0 ≤ m
    · simp [h0]
    · simp [h0]
  · intro hz hne
    obtain _ | ⟨p0, ps⟩ := profiles
    · exact absurd rfl hne
    have hm : minScoreLoop ((p0 :: ps).map (profileScore allWeights r.features)) =
        some (((ps.map (profileScore allWeights r.features))).foldl min
          (profileScore allWeights r.features p0)) := by
      rw [List.map_cons, minScoreLoop, List.foldl_cons, minScoreLoop_some]
    have hmem := foldl_min_mem (ps.map (profileScore allWeights r.features))
      (profileScore allWeights r.features p0)
    rw [← List.map_cons] at hmem
    obtain ⟨p, hp, hpe⟩ := List.mem_map.1 hmem
    have hzero : ((ps.map (profileScore allWeights r.features))).foldl min
        (profileScore allWeights r.features p0) = 0 := by
      rw [← hpe]
      exact hz p hp
    rw [scoreRecipeForFamily, hm, hzero]
    simp
  · rintro ⟨p, hp, hneg⟩
    rcases hm : minScoreLoop (profiles.map (profileScore allWeights r.features))
      with _ | m
    · rw [scoreRecipeForFamily, hm]
    · have hle := minScoreLoop_le_mem hm (List.mem_map_of_mem _ hp)
      have hneg' : ¬ (0 : ℚ) ≤ m := by linarith
      rw [scoreRecipeForFamily, hm]
      simp [hneg']
  · intro recipes limit e he
    rw [getFamilySuggestions] at he
    split at he
    · simp at he
    · have h1 : e ∈ stableSort minScoreBefore (familyScored profiles allWeights recipes) :=
        List.mem_of_mem_take he
      have h2 : e ∈ familyScored profiles allWeights recipes := mem_stableSort.1 h1
      exact List.mem_filterMap.1 h2

/-- Witness for C5 (amended): the single cold-start profile again — the group
score is exactly 0 and the recipe is accepted by the TS path. -/
theorem C5_family_filter_amended_witness :
    minScoreLoop ([(⟨"p1", "Anna"⟩ : HouseholdProfile)].map
      (profileScore []
        (Recipe.mk "r1" "Meatballs" none
          [("cuisine", FeatureValue.scalar "swedish")] (some (9/2))).features)) =
      some 0 ∧
    ((scoreRecipeForFamily [⟨"p1", "Anna"⟩] []
        ⟨"r1", "Meatballs", none, [("cuisine", FeatureValue.scalar "swedish")],
          some (9/2)⟩).isSome ↔ (0 : ℚ) ≤ 0) ∧
    (scoreRecipeForFamily [⟨"p1", "Anna"⟩] []
        ⟨"r1", "Meatballs", none, [("cuisine", FeatureValue.scalar "swedish")],
          some (9/2)⟩).isSome := by
  have hm : minScoreLoop ([(⟨"p1", "Anna"⟩ : HouseholdProfile)].map
      (profileScore []
        (Recipe.mk "r1" "Meatballs" none
          [("cuisine", FeatureValue.scalar "swedish")] (some (9/2))).features)) =
      some 0 := by
    norm_num [minScoreLoop, profileScore, profileWeights, calculateScore,
      scoreFeatureEntry, buildWeightMap, mapGet, featureKey, List.find?]
  have h := C5_family_filter_amended [⟨"p1", "Anna"⟩] []
    ⟨"r1", "Meatballs", none, [("cuisine", FeatureValue.scalar "swedish")], some (9/2)⟩
  refine ⟨hm, h.1 0 hm, ?_⟩
  refine h.2.1 ?_ (by simp)
  intro p hp
  simp only [List.mem_singleton] at hp
  subst hp
  norm_num [profileScore, profileWeights, calculateScore, scoreFeatureEntry,
    buildWeightMap, mapGet, featureKey, List.find?]

theorem pairwise_insertSorted {before : α → α → Bool}
    (htot : ∀ a b, before a b = true ∨ before b a = true)
    (htrans : ∀ a b c, before a b = true → before b c = true → before a c = true)
    {x : α} {l : List α} (h : l.Pairwise (fun a b => before a b = true)) :
    (insertSorted before x l).Pairwise (fun a b => before a b = true) := by
  induction l with
  | nil => simp [insertSorted]
  | cons y ys ih =>
    rw [List.pairwise_cons] at h
    by_cases hc : before x y = true
    · rw [insertSorted, if_pos hc]
      refine List.Pairwise.cons ?_ (List.Pairwise.cons h.1 h.2)
      intro z hz
      rcases List.mem_cons.1 hz with rfl | hz
      · exact hc
      · exact htrans x y z hc (h.1 z hz)
    · rw [insertSorted, if_neg hc]
      refine List.Pairwise.cons ?_ (ih h.2)
      intro z hz
      rcases mem_insertSorted.1 hz with rfl | hz
      · rcases htot z y with h' | h'
        · exact absurd h' hc
        · exact h'
      · exact h.1 z hz

theorem pairwise_stableSort {before : α → α → Bool}
    (htot : ∀ a b, before a b = true ∨ before b a = true)
    (htrans : ∀ a b c, before a b = true → before b c = true → before a c = true)
    (l : List α) :
    (stableSort before l).Pairwise (fun a b => before a b = true) := by
  induction l with
  | nil => simp [stableSort]
  | cons x xs ih => exact pairwise_insertSorted htot htrans ih

theorem minScoreBefore_total : ∀ a b : FamilyScoredRecipe,
    minScoreBefore a b = true ∨ minScoreBefore b a = true := by
  intro a b
  simp only [minScoreBefore, decide_eq_true_eq]
  exact (le_total b.min_score a.min_score).imp id id

theorem minScoreBefore_trans : ∀ a b c : FamilyScoredRecipe,
    minScoreBefore a b = true → minScoreBefore b c = true →
    minScoreBefore a c = true := by
  intro a b c
  simp only [minScoreBefore, decide_eq_true_eq]
  intro h1 h2
  exact le_trans h2 h1

/-- Counterexample for C9: two recipes whose unrounded group scores are
`0.001` and `0.004` both round to `0.00`; the sort at recommendation.ts:169
keys on the stored rounded `min_score`, so the tie keeps pool order and the
recipe with the *smaller* unrounded group score is ranked first — the ranking
is not the order of the unrounded minimum scores. -/
theorem C9_sort_uses_rounded_counterexample :
    getFamilySuggestions [⟨"p1", "Anna"⟩]
      [⟨"p1", "cuisine", "italian", 1/1000⟩, ⟨"p1", "cuisine", "mexican", 4/1000⟩]
      [⟨"a", "A", none, [("cuisine", FeatureValue.scalar "italian")], some 4⟩,
       ⟨"b", "B", none, [("cuisine", FeatureValue.scalar "mexican")], some 4⟩]
      10 =
      [⟨"a", "A", none, 0, [("Anna", 0)]⟩, ⟨"b", "B", none, 0, [("Anna", 0)]⟩] ∧
    minScoreLoop ([(⟨"p1", "Anna"⟩ : HouseholdProfile)].map
      (profileScore
        [⟨"p1", "cuisine", "italian", 1/1000⟩, ⟨"p1", "cuisine", "mexican", 4/1000⟩]
        [("cuisine", FeatureValue.scalar "italian")])) = some (1/1000) ∧
    minScoreLoop ([(⟨"p1", "Anna"⟩ : HouseholdProfile)].map
      (profileScore
        [⟨"p1", "cuisine", "italian", 1/1000⟩, ⟨"p1", "cuisine", "mexican", 4/1000⟩]
        [("cuisine", FeatureValue.scalar "mexican")])) = some (4/1000) ∧
    (1/1000 : ℚ) < 4/1000 := by
  have k1 : ("cuisine" ++ ":" ++ "italian" == "cuisine" ++ ":" ++ "mexican") = false := by
    decide
  have k2 : ("cuisine" ++ ":" ++ "mexican" == "cuisine" ++ ":" ++ "italian") = false := by
    decide
  refine ⟨?_, ?_, ?_, by norm_num⟩
  · norm_num [getFamilySuggestions, familyScored, scoreRecipeForFamily,
      minScoreLoop, profileScore, profileWeights, calculateScore,
      scoreFeatureEntry, buildWeightMap, mapSet, mapGet, weightKey, featureKey,
      stableSort, insertSorted, minScoreBefore, round2, round_eq,
      List.find?, List.filterMap, k1, k2]
  · norm_num [minScoreLoop, profileScore, profileWeights, calculateScore,
      scoreFeatureEntry, buildWeightMap, mapSet, mapGet, weightKey, featureKey,
      List.find?, k1, k2]
  · norm_num [minScoreLoop, profileScore, profileWeights, calculateScore,
      scoreFeatureEntry, buildWeightMap, mapSet, mapGet, weightKey, featureKey,
      List.find?, k1, k2]

/-- **C9 (amended).** In `getFamilySuggestions`, rounding to 2 decimals is
applied to the stored per-profile scores *and* to the stored group score; the
inclusion comparison (`minScore >= 0`) uses the full-precision group score,
but the sort keys on the stored *rounded* `min_score` (ties keeping pool
order), so the returned list is ordered by the rounded — not the unrounded —
minimum scores. -/
theorem C9_rounding_amended (profiles : List HouseholdProfile)
    (allWeights : List PreferenceWeight) (recipes : List Recipe) (limit : ℕ) :
    (∀ r : Recipe, ∀ m,
      minScoreLoop (profiles.map (profileScore allWeights r.features)) = some m →
      (scoreRecipeForFamily profiles allWeights r = none ↔ m < 0) ∧
      (0 ≤ m → scoreRecipeForFamily profiles allWeights r =
        some ⟨r.id, r.name, r.image_url, round2 m,
          profiles.map fun p =>
            (p.display_name, round2 (profileScore allWeights r.features p))⟩)) ∧
    (getFamilySuggestions profiles allWeights recipes limit).Pairwise
      (fun a b => b.min_score ≤ a.min_score) := by
  constructor
  · intro r m hm
    constructor
    · rw [scoreRecipeForFamily, hm]
      by_cases h0 : 0 ≤ m
      · have hnl : ¬ m < 0 := not_lt.2 h0
        simp [h0, hnl]
      · have hl : m < 0 := not_le.1 h0
        simp [h0, hl]
    · intro h0
      rw [scoreRecipeForFamily, hm]
      simp [h0]
  · rw [getFamilySuggestions]
    split
    · simp
    · have hs := pairwise_stableSort minScoreBefore_total minScoreBefore_trans
        (familyScored profiles allWeights recipes)
      have ht := hs.sublist (List.take_sublist limit _)
      exact ht.imp (fun h => by simpa [minScoreBefore] using h)

/-- Witness for C9 (amended): on the counterexample household the unrounded
group score `0.001` passes the `>= 0` check and is stored rounded to `0`, and
the returned list is sorted under the rounded key. -/
theorem C9_rounding_amended_witness :
    minScoreLoop ([(⟨"p1", "Anna"⟩ : HouseholdProfile)].map
      (profileScore [⟨"p1", "cuisine", "italian", 1/1000⟩]
        (Recipe.mk "a" "A" none [("cuisine", FeatureValue.scalar "italian")]
          (some 4)).features)) = some (1/1000) ∧
    scoreRecipeForFamily [⟨"p1", "Anna"⟩] [⟨"p1", "cuisine", "italian", 1/1000⟩]
      ⟨"a", "A", none, [("cuisine", FeatureValue.scalar "italian")], some 4⟩ =
      some ⟨"a", "A", none, round2 (1/1000), [("Anna", round2 (1/1000))]⟩ ∧
    (getFamilySuggestions [⟨"p1", "Anna"⟩] [⟨"p1", "cuisine", "italian", 1/1000⟩]
      [⟨"a", "A", none, [("cuisine", FeatureValue.scalar "italian")], some 4⟩]
      10).Pairwise (fun a b => b.min_score ≤ a.min_score) := by
  have hm : minScoreLoop ([(⟨"p1", "Anna"⟩ : HouseholdProfile)].map
      (profileScore [⟨"p1", "cuisine", "italian", 1/1000⟩]
        (Recipe.mk "a" "A" none [("cuisine", FeatureValue.scalar "italian")]
          (some 4)).features)) = some (1/1000) := by
    norm_num [minScoreLoop, profileScore, profileWeights, calculateScore,
      scoreFeatureEntry, buildWeightMap, mapSet, mapGet, weightKey, featureKey,
      List.find?]
  have h := C9_rounding_amended [⟨"p1", "Anna"⟩] [⟨"p1", "cuisine", "italian", 1/1000⟩]
    [⟨"a", "A", none, [("cuisine", FeatureValue.scalar "italian")], some 4⟩] 10
  refine ⟨hm, ?_, h.2⟩
  have h2 := (h.1 ⟨"a", "A", none, [("cuisine", FeatureValue.scalar "italian")], some 4⟩
    (1/1000) hm).2 (by norm_num)
  rw [h2]
  norm_num [profileScore, profileWeights, calculateScore, scoreFeatureEntry,
    buildWeightMap, mapSet, mapGet, weightKey, featureKey, List.find?]

theorem popLE_total : ∀ a b : Option ℚ, popLE a b = true ∨ popLE b a = true := by
  intro a b
  cases a with
  | none => exact Or.inl rfl
  | some x =>
    cases b with
    | none => exact Or.inr rfl
    | some y =>
      rcases le_total x y with h | h
      · exact Or.inl (by simpa [popLE] using h)
      · exact Or.inr (by simpa [popLE] using h)

theorem popLE_trans : ∀ a b c : Option ℚ,
    popLE a b = true → popLE b c = true → popLE a c = true := by
  intro a b c
  cases a <;> cases b <;> cases c <;> simp [popLE]
  exact fun h1 h2 => le_trans h1 h2

theorem popBefore_total : ∀ a b : Recipe,
    popBefore a b = true ∨ popBefore b a = true := by
  intro a b
  exact (popLE_total b.external_rating a.external_rating).imp id id

theorem popBefore_trans : ∀ a b c : Recipe,
    popBefore a b = true → popBefore b c = true → popBefore a c = true := by
  intro a b c h1 h2
  exact popLE_trans c.external_rating b.external_rating a.external_rating h2 h1

theorem mem_of_head? {β : Type _} {l : List β} {a : β} (h : l.head? = some a) :
    a ∈ l := by
  cases l with
  | nil => simp at h
  | cons x xs =>
    simp only [List.head?_cons, Option.some_inj] at h
    rw [← h]
    exact List.mem_cons_self _ _

/-- Counterexample for C7: the SQL `get_next_recipe_to_rate` orders by
`external_rating DESC NULLS LAST, RANDOM()`.  With two unrated recipes tied at
rating 4.5 and zero prior ratings (cold start), two different random draws
return two different recipes, so identical rating histories do not imply the
same recipe from this cited selector. -/
theorem C7_sql_random_tiebreak_counterexample :
    get_next_recipe_to_rate
      [⟨"r1", "One", none, [], some (9/2)⟩, ⟨"r2", "Two", none, [], some (9/2)⟩]
      [] (fun s => if s == "r1" then 0 else 1) =
      some ⟨"r1", "One", none, [], some (9/2)⟩ ∧
    get_next_recipe_to_rate
      [⟨"r1", "One", none, [], some (9/2)⟩, ⟨"r2", "Two", none, [], some (9/2)⟩]
      [] (fun s => if s == "r1" then 1 else 0) =
      some ⟨"r2", "Two", none, [], some (9/2)⟩ ∧
    ([] : List String).length < 20 ∧
    (⟨"r1", "One", none, [], some (9/2)⟩ : Recipe) ≠
      ⟨"r2", "Two", none, [], some (9/2)⟩ := by
  have hne : ¬ (("r2" : String) = "r1") := by decide
  refine ⟨?_, ?_, by norm_num, by simp⟩
  · norm_num [get_next_recipe_to_rate, stableSort, insertSorted, sqlOrderBefore,
      popBefore, popLE, List.filter, hne]
  · norm_num [get_next_recipe_to_rate, stableSort, insertSorted, sqlOrderBefore,
      popBefore, popLE, List.filter, hne]

/-- **C7 (amended).** The TS `getNextRecipeToRate` is deterministic in the
cold-start regime: with fewer than 20 ratings the random index is never
consulted, so two profiles with identical rated sets receive the same recipe
over the same catalog, and any returned recipe is an unrated recipe whose
external rating is maximal among the unrated ones (nulls last).  (The SQL
`get_next_recipe_to_rate`, which no route calls, breaks rating ties with
`RANDOM()` and is not deterministic — see the counterexample.) -/
theorem C7_cold_start_determinism_amended (catalog : List Recipe)
    (rated1 rated2 : List String) (i1 i2 : ℕ)
    (heq : rated1 = rated2) (hlt : rated1.length < 20) :
    getNextRecipeToRate catalog rated1 i1 = getNextRecipeToRate catalog rated2 i2 ∧
    (∀ r, getNextRecipeToRate catalog rated1 i1 = some r →
      r ∈ catalog ∧ r.id ∉ rated1 ∧
      ∀ u ∈ catalog, u.id ∉ rated1 →
        popLE u.external_rating r.external_rating = true) := by
  subst heq
  have htake : ∀ (l : List Recipe), (l.take 1).head? = l.head? := by
    intro l
    cases l <;> rfl
  constructor
  · simp only [getNextRecipeToRate, if_pos hlt]
  · intro r hr
    simp only [getNextRecipeToRate, if_pos hlt] at hr
    split at hr
    · simp at hr
    · rw [htake] at hr
      have hmemsort := mem_of_head? hr
      have hfil := mem_stableSort.1 hmemsort
      have hcat := List.mem_filter.1 hfil
      have hnot : r.id ∉ rated1 := by
        have hc := hcat.2
        simpa using hc
      refine ⟨hcat.1, hnot, ?_⟩
      intro u hu hunr
      exact head_stableSort_dominates popBefore_total popBefore_trans hr u
        (List.mem_filter.2 ⟨hu, by simpa using hunr⟩)

/-- Witness for C7 (amended): one tied-free catalog, empty and equal rating
histories, two different random indices — the same recipe comes back, is
unrated, and carries the maximal external rating. -/
theorem C7_cold_start_determinism_amended_witness :
    getNextRecipeToRate [⟨"r1", "One", none, [], some (9/2)⟩] [] 0 =
      getNextRecipeToRate [⟨"r1", "One", none, [], some (9/2)⟩] [] 7 ∧
    getNextRecipeToRate [⟨"r1", "One", none, [], some (9/2)⟩] [] 0 =
      some ⟨"r1", "One", none, [], some (9/2)⟩ ∧
    (⟨"r1", "One", none, [], some (9/2)⟩ : Recipe) ∈
      [(⟨"r1", "One", none, [], some (9/2)⟩ : Recipe)] ∧
    ("r1" : String) ∉ ([] : List String) := by
  have h := C7_cold_start_determinism_amended
    [⟨"r1", "One", none, [], some (9/2)⟩] [] [] 0 7 rfl (by norm_num)
  have hr : getNextRecipeToRate [⟨"r1", "One", none, [], some (9/2)⟩] [] 0 =
      some ⟨"r1", "One", none, [], some (9/2)⟩ := by
    norm_num [getNextRecipeToRate, stableSort, insertSorted, List.filter]
  have h2 := h.2 _ hr
  exact ⟨h.1, hr, h2.1, h2.2.1⟩

/-- **C8.** The next-recipe selector never returns a recipe the profile has
already rated, and — with the spec-modelled `exclude` argument passed by the
`/api/recipes/next` route — never the caller-excluded recipe, in both the
cold-start and the randomized branch. -/
theorem C8_next_skips_rated_and_excluded (catalog : List Recipe)
    (ratedIds : List String) (excludeId : Option String) (randIdx : ℕ) (r : Recipe)
    (h : getNextRecipeToRateEx catalog ratedIds excludeId randIdx = some r) :
    r.id ∉ ratedIds ∧ excludeId ≠ some r.id := by
  by_cases hlt : ratedIds.length < 20
  · simp only [getNextRecipeToRateEx, if_pos hlt] at h
    split at h
    · simp at h
    · have htake : ∀ (l : List Recipe), (l.take 1).head? = l.head? := by
        intro l
        cases l <;> rfl
      rw [htake] at h
      have hc := (List.mem_filter.1 (mem_stableSort.1 (mem_of_head? h))).2
      simp only [Bool.and_eq_true, Bool.not_eq_true'] at hc
      refine ⟨by simpa using hc.1, ?_⟩
      intro he
      have := hc.2
      rw [he] at this
      simp at this
  · simp only [getNextRecipeToRateEx, if_neg hlt] at h
    split at h
    · simp at h
    · have hmem := List.mem_of_mem_take (List.get?_mem h)
      have hc := (List.mem_filter.1 (mem_stableSort.1 hmem)).2
      simp only [Bool.and_eq_true, Bool.not_eq_true'] at hc
      refine ⟨by simpa using hc.1, ?_⟩
      intro he
      have := hc.2
      rw [he] at this
      simp at this

/-- Witness for C8: with `r1` already rated and `r2` excluded by the caller,
the selector returns `r3`, which is neither rated nor excluded. -/
theorem C8_next_skips_rated_and_excluded_witness :
    getNextRecipeToRateEx
      [⟨"r1", "One", none, [], some 5⟩, ⟨"r2", "Two", none, [], some 4⟩,
       ⟨"r3", "Three", none, [], some 3⟩]
      ["r1"] (some "r2") 0 = some ⟨"r3", "Three", none, [], some 3⟩ ∧
    ("r3" : String) ∉ (["r1"] : List String) ∧
    (some "r2" : Option String) ≠ some ("r3" : String) := by
  have h21 : ¬ (("r2" : String) = "r1") := by decide
  have h31 : ¬ (("r3" : String) = "r1") := by decide
  have h32 : ¬ (("r3" : String) = "r2") := by decide
  have hr : getNextRecipeToRateEx
      [⟨"r1", "One", none, [], some 5⟩, ⟨"r2", "Two", none, [], some 4⟩,
       ⟨"r3", "Three", none, [], some 3⟩]
      ["r1"] (some "r2") 0 = some ⟨"r3", "Three", none, [], some 3⟩ := by
    norm_num [getNextRecipeToRateEx, stableSort, insertSorted, List.filter,
      h21, h31, h32]
  have h := C8_next_skips_rated_and_excluded _ _ _ _ _ hr
  exact ⟨hr, h.1, h.2⟩
